import Mathlib

/-!
Verification of the chunking / checkpoint / resume pipeline of
transcribe-in-batches.js.

Text is modelled as lists of characters.  JavaScript string helpers
(trim, trimEnd, split, slice with a negative index, template joins)
are embedded as functions on these lists; whitespace is the ASCII
whitespace class, a faithful restriction of the JS class for the
transcripts this program handles.
-/

set_option maxHeartbeats 1000000
set_option maxRecDepth 100000

namespace Batch

/-- Text is a list of characters. -/
abbrev Str := List Char

/-- ASCII whitespace, the model of the JS regex class backslash-s. -/
def isWS (c : Char) : Bool :=
  c = ' ' || c = '\t' || c = '\n' || c = '\r' || c = Char.ofNat 11 || c = Char.ofNat 12

/-- Model of String.prototype.trimStart. -/
def trimStart (s : Str) : Str := s.dropWhile isWS

/-- Model of String.prototype.trimEnd. -/
def trimEnd (s : Str) : Str := (s.reverse.dropWhile isWS).reverse

/-- Model of String.prototype.trim. -/
def trim (s : Str) : Str := trimStart (trimEnd s)

/-- Lower-casing of one ASCII character, for the case-insensitive regex flags. -/
def asciiLower (c : Char) : Char :=
  if 'A' ≤ c ∧ c ≤ 'Z' then Char.ofNat (c.toNat + 32) else c

/-- Model of text.split with separator newline. -/
def splitOnNl : Str → List Str
  | [] => [[]]
  | c :: rest =>
    match splitOnNl rest with
    | [] => [[]]
    | h :: t => if c = '\n' then [] :: h :: t else (c :: h) :: t

/-- Model of text.replace of CRLF by LF (the global regex replace). -/
def normalizeCRLF : Str → Str
  | [] => []
  | [c] => [c]
  | c :: d :: rest =>
    if c = '\r' ∧ d = '\n' then '\n' :: normalizeCRLF rest
    else c :: normalizeCRLF (d :: rest)

/-- One newline character. -/
def nl : Str := [ '\n' ]

/-- The blank-line separator inserted between blocks inside a chunk. -/
def sep : Str := [ '\n', '\n' ]

/-- Model of s.slice(-n) for n positive: the last n characters (all of s if shorter). -/
def takeLastB (n : Nat) (s : Str) : Str := s.drop (s.length - n)

/-- Decimal digit character. -/
def digitChar (d : Nat) : Char := Char.ofNat (48 + d)

/-- Fuel-driven decimal rendering; the fuel bounds the number of divisions by
ten, and the callers supply fuel at least the number of digits, so the fuel
never runs out. -/
def natStrGo : Nat → Nat → Str
  | 0, _ => []
  | fuel + 1, n =>
    if n < 10 then [digitChar n] else natStrGo fuel (n / 10) ++ [digitChar (n % 10)]

/-- Decimal rendering of a natural number, the model of JS template
interpolation; n itself always exceeds the digit count, so it serves as fuel. -/
def natStr (n : Nat) : Str := natStrGo (n + 1) n

/-- Does the text contain a character that is not whitespace. -/
def hasNonWS (s : Str) : Bool := s.any (fun c => !(isWS c))

/-- Model of Array.prototype.join with a given separator. -/
def joinSep (s : Str) : List Str → Str
  | [] => []
  | [x] => x
  | x :: y :: rest => x ++ s ++ joinSep s (y :: rest)

/-!
Block Splitter (source: looksLikeSpeakerLine, splitIntoBlocks).
-/

/-- Source looksLikeSpeakerLine: the regex test of SPEAKER colon, optional
whitespace, then at least one non-whitespace character, case-insensitive,
anchored at the start of the trimmed line. -/
def looksLikeSpeakerLine (line : Str) : Bool :=
  let t := trim line
  ((t.take 8).map asciiLower = ("speaker:").toList) && (t.drop 8).dropWhile isWS ≠ []

/-- Source flush inside splitIntoBlocks: push the joined, right-trimmed
current lines when the current block is non-empty. -/
def splitFlush (blocks : List Str) (current : List Str) : List Str :=
  if current.length > 0 then blocks ++ [trimEnd (joinSep nl current)] else blocks

/-- Source loop of splitIntoBlocks over the lines. -/
def splitGo : List Str → List Str → List Str → List Str
  | [], blocks, current => splitFlush blocks current
  | l :: rest, blocks, current =>
    if looksLikeSpeakerLine l then
      splitGo rest (splitFlush blocks current) [trimEnd l]
    else if current.length > 0 then
      splitGo rest blocks (current ++ [trimEnd l])
    else
      splitGo rest blocks current

/-- Source splitIntoBlocks: normalize line endings, split on newline,
scan the lines accumulating speaker-turn blocks. -/
def splitIntoBlocks (text : Str) : List Str :=
  splitGo (splitOnNl (normalizeCRLF text)) [] []

/-!
Chunk Builder (source: buildChunksFromBlocks).  The hard maximum is the
global MAX_CHUNK_CHARS in the source; both thresholds are parameters here
and the source constants are defined below.
-/

/-- Slicing of an oversized block into consecutive pieces of maxC
characters (source for-loop with step MAX_CHUNK_CHARS).  The maxC = 0
guard is unreachable in the source, whose constant is 32000. -/
def sliceUp (maxC : Nat) (b : Str) : List Str :=
  if b.length = 0 then []
  else if maxC = 0 then []
  else b.take maxC :: sliceUp maxC (b.drop maxC)
  termination_by b.length
  decreasing_by
    simp only [List.length_drop]
    omega

/-- One iteration of the source loop body of buildChunksFromBlocks:
given the current buffer and the next block, return the chunks emitted
now and the new buffer. -/
def buildStep (target maxC : Nat) (cur b : Str) : List Str × Str :=
  if b.length > maxC then
    ((if (trim cur).length > 0 then [trimEnd cur] else []) ++ sliceUp maxC b, [])
  else
    let addition := (if cur.length > 0 then sep else []) ++ b
    let p1 : List Str × Str :=
      if cur.length > 0 ∧ cur.length + addition.length > maxC then ([trimEnd cur], []) else ([], cur)
    let p2 : List Str × Str :=
      if p1.2.length > 0 ∧ p1.2.length ≥ target then (p1.1 ++ [trimEnd p1.2], []) else p1
    (p2.1, p2.2 ++ (if p2.2.length > 0 then sep else []) ++ b)

/-- Source loop of buildChunksFromBlocks over the blocks, with the final
flush of a non-empty buffer. -/
def buildLoop (target maxC : Nat) : List Str → Str → List Str
  | [], cur => if (trim cur).length > 0 then [trimEnd cur] else []
  | b :: rest, cur =>
    (buildStep target maxC cur b).1 ++ buildLoop target maxC rest (buildStep target maxC cur b).2

/-- Source buildChunksFromBlocks. -/
def buildChunksFromBlocks (blocks : List Str) (target maxC : Nat) : List Str :=
  buildLoop target maxC blocks []

/-- Source constant TARGET_CHUNK_CHARS. -/
def TARGET_CHUNK_CHARS : Nat := 25000

/-- Source constant MAX_CHUNK_CHARS. -/
def MAX_CHUNK_CHARS : Nat := 32000

/-- Source constant MIN_CHUNK_SUMMARY_CHARS. -/
def MIN_CHUNK_SUMMARY_CHARS : Nat := 5000

/-- Source constant BRIDGE_CHARS. -/
def BRIDGE_CHARS : Nat := 1200

/-!
Chunk structure: the Chunk Builder seen at the level of whole blocks.  A
group is either a packed run of blocks forming one chunk, or an oversized
block emitted as forced slices.  The groups are computed by the same scan
as the source loop, and the correspondence theorem below identifies the
source chunks with the rendered groups.
-/

/-- A well-formed Block as produced by the Block Splitter: a fixed point of
right-trimming that contains a character that is not whitespace. -/
def WFBlock (b : Str) : Prop := trimEnd b = b ∧ trim b ≠ []

instance : DecidablePred WFBlock := fun b => by
  unfold WFBlock
  infer_instance

inductive Group where
  | pack : List Str → Group
  | split : Str → Group

/-- The constituent blocks of a group. -/
def groupParts : Group → List Str
  | .pack bs => bs
  | .split b => [b]

/-- The chunks a group renders to: a packed run joins its blocks with the
blank-line separator; an oversized block renders to its slices. -/
def groupChunks (maxC : Nat) : Group → List Str
  | .pack bs => [joinSep sep bs]
  | .split b => sliceUp maxC b

/-- The source scan of buildChunksFromBlocks, tracked at block level. -/
def buildGroupsGo (target maxC : Nat) : List Str → List Str → List Group
  | [], curBs => if curBs = [] then [] else [Group.pack curBs]
  | b :: rest, curBs =>
    if b.length > maxC then
      (if curBs = [] then [] else [Group.pack curBs]) ++
        Group.split b :: buildGroupsGo target maxC rest []
    else
      if (joinSep sep curBs).length > 0 ∧
          (joinSep sep curBs).length + (sep ++ b).length > maxC then
        Group.pack curBs :: buildGroupsGo target maxC rest [b]
      else if (joinSep sep curBs).length > 0 ∧ (joinSep sep curBs).length ≥ target then
        Group.pack curBs :: buildGroupsGo target maxC rest [b]
      else
        buildGroupsGo target maxC rest (curBs ++ [b])

/-- The groups of a full run of the Chunk Builder. -/
def buildGroups (blocks : List Str) (target maxC : Nat) : List Group :=
  buildGroupsGo target maxC blocks []

/-!
Remote Summarization Client (source: withRetries, summarizeChunk,
expandSummaryNoNewFacts).  An error object carries the optional HTTP
status (the source reads err.status with err.response.status as a
fallback) and the message string.  The sequence of remote outcomes and
the random jitter are inputs of the model.
-/

structure JsErr where
  status : Option Nat
  message : Str
deriving DecidableEq

/-- Status part of the source retryable test: 429 or the 500 to 599 range;
an absent status satisfies neither comparison. -/
def statusRetryable : Option Nat → Bool
  | some s => s == 429 || (500 ≤ s && s ≤ 599)
  | none => false

/-- Substring search, the model of an unanchored regex literal test. -/
def containsSub (needle : Str) : Str → Bool
  | [] => needle.isPrefixOf []
  | c :: t => needle.isPrefixOf (c :: t) || containsSub needle t

/-- Message part of the source retryable test: the case-insensitive regex
alternation of the transient network signatures. -/
def msgRetryable (msg : Str) : Bool :=
  let m := msg.map asciiLower
  containsSub (("etimedout").toList) m || containsSub (("econnreset").toList) m ||
  containsSub (("enotfound").toList) m || containsSub (("fetch failed").toList) m ||
  containsSub (("timeout").toList) m

/-- Source retryable predicate of withRetries. -/
def retryable (e : JsErr) : Bool := statusRetryable e.status || msgRetryable e.message

instance {ε α : Type} [DecidableEq ε] [DecidableEq α] : DecidableEq (Except ε α) := fun a b =>
  match a, b with
  | .ok x, .ok y => decidable_of_iff (x = y) (by simp)
  | .error x, .error y => decidable_of_iff (x = y) (by simp)
  | .ok _, .error _ => isFalse (by simp)
  | .error _, .ok _ => isFalse (by simp)

/-- Outcome of a retry-wrapped call: the result, the backoff delays waited,
and how many attempts ran. -/
structure RetryResult (α : Type) where
  result : Except JsErr α
  delays : List Nat
  attemptsMade : Nat
deriving DecidableEq

/-- The value thrown by the trailing throw of withRetries when the loop
never ran; unreachable for the source tries of 6. -/
def undefinedErr : JsErr := ⟨none, ("undefined").toList⟩

/-- Source withRetries loop.  The fuel counts the remaining loop iterations
and starts at tries, so the fuel-zero branch is exactly the unreachable
trailing throw of lastErr.  f gives the outcome of each attempt, 1-based;
jitter gives the random jitter drawn before each wait. -/
def withRetriesGo {α : Type} (f : Nat → Except JsErr α) (jitter : Nat → Nat)
    (tries baseDelayMs : Nat) : Nat → Nat → Option JsErr → RetryResult α
  | 0, attempt, lastErr => ⟨.error (lastErr.getD undefinedErr), [], attempt - 1⟩
  | fuel + 1, attempt, _ =>
    match f attempt with
    | .ok v => ⟨.ok v, [], attempt⟩
    | .error e =>
      if retryable e = false ∨ attempt = tries then ⟨.error e, [], attempt⟩
      else
        let r := withRetriesGo f jitter tries baseDelayMs fuel (attempt + 1) (some e)
        ⟨r.result, (baseDelayMs * 2 ^ (attempt - 1) + jitter attempt) :: r.delays, r.attemptsMade⟩

/-- Source withRetries with its default options: tries 6, baseDelayMs 750,
attempts starting at 1 (no caller overrides the defaults). -/
def withRetries {α : Type} (f : Nat → Except JsErr α) (jitter : Nat → Nat) : RetryResult α :=
  withRetriesGo f jitter 6 750 6 1 none

/-- A remote response: the output_text field, possibly absent. -/
abbrev Resp := Option Str

/-- The empty-output error of summarizeChunk. -/
def emptyOutputErr : JsErr := ⟨none, ("Empty model output_text received.").toList⟩

/-- The empty-output error of expandSummaryNoNewFacts. -/
def emptyOutputExpandErr : JsErr :=
  ⟨none, ("Empty model output_text received during expansion.").toList⟩

/-- Source summarizeChunk: wrap the remote call in withRetries, then trim
the output text (an absent field reads as empty) and fail outside the retry
wrapper when nothing remains. -/
def summarizeChunkModel (f : Nat → Except JsErr Resp) (jitter : Nat → Nat) : RetryResult Str :=
  let r := withRetries f jitter
  match r.result with
  | .error e => ⟨.error e, r.delays, r.attemptsMade⟩
  | .ok resp =>
    if trim (resp.getD []) = [] then ⟨.error emptyOutputErr, r.delays, r.attemptsMade⟩
    else ⟨.ok (trim (resp.getD [])), r.delays, r.attemptsMade⟩

/-- Source expandSummaryNoNewFacts: identical control flow with its own
empty-output message. -/
def expandSummaryModel (f : Nat → Except JsErr Resp) (jitter : Nat → Nat) : RetryResult Str :=
  let r := withRetries f jitter
  match r.result with
  | .error e => ⟨.error e, r.delays, r.attemptsMade⟩
  | .ok resp =>
    if trim (resp.getD []) = [] then ⟨.error emptyOutputExpandErr, r.delays, r.attemptsMade⟩
    else ⟨.ok (trim (resp.getD [])), r.delays, r.attemptsMade⟩

/-!
Checkpoint Store and combine (source: loadExistingParts, combineParts,
and the missing-parts warning in main).  The part files are modelled as a
map from chunk index to the optional raw file content.
-/

/-- JS truthiness of an optional string: null and the empty string are falsy. -/
def jsTruthy : Option Str → Option Str
  | none => none
  | some t => if t = [] then none else some t

/-- Source loadExistingParts at one index: read and right-trim the part
file when it exists. -/
def loadPart (files : Nat → Option Str) (i : Nat) : Option Str := (files i).map trimEnd

/-- The label of one combined section. -/
def partHeader (n : Nat) : Str := ("Part ").toList ++ natStr n

/-- Source combineParts map body, carrying the 0-based index: the label,
a blank line, the content (empty when absent), all right-trimmed. -/
def combineGo : Nat → List (Option Str) → List Str
  | _, [] => []
  | idx, c :: rest => trimEnd (partHeader (idx + 1) ++ sep ++ c.getD []) :: combineGo (idx + 1) rest

/-- Source combineParts: the sections joined with the blank-line separator. -/
def combineParts (parts : List (Option Str)) : Str := joinSep sep (combineGo 0 parts)

/-- Source missing-parts computation before combining: the 1-based indices
of the slots that are not truthy. -/
def missingIdx : Nat → List (Option Str) → List Nat
  | _, [] => []
  | idx, c :: rest =>
    if (jsTruthy c).isSome then missingIdx (idx + 1) rest
    else (idx + 1) :: missingIdx (idx + 1) rest

/-!
Run Orchestrator (source: main, the loop over chunks and the final
combine).  The remote world enters through two oracles: sOp models the
result of summarizeChunk (given the chunk text, the chunk index and the
bridge text) and eOp the result of expandSummaryNoNewFacts (given the
summary).  Each processed index is recorded as a StepInfo: whether the
checkpoint was resumed, the bridge passed to the summarize call, the
first-pass summary, the expansion output, the text written to the part
file, and the final text from which the next bridge is taken.
-/

structure StepInfo where
  index : Nat
  resumed : Bool
  bridge : Option Str
  firstPass : Option Str
  expanded : Option Str
  written : Option Str
  finalText : Str
deriving DecidableEq

/-- Source main loop over the chunk indices.  The fuel counts the remaining
indices, so the loop runs exactly chunks.length times from index 0; tail is
the lastSummaryTail variable, initially empty. -/
def runLoopGo (sOp : Str → Nat → Str → Except JsErr Str) (eOp : Str → Except JsErr Str)
    (chunks : List Str) (existing : Nat → Option Str) (minChars B : Nat) :
    Nat → Nat → Str → Except JsErr (List StepInfo)
  | 0, _, _ => .ok []
  | rem + 1, i, tail =>
    match jsTruthy (existing i) with
    | some t =>
      match runLoopGo sOp eOp chunks existing minChars B rem (i + 1)
          (if B > 0 then takeLastB B t else tail) with
      | .error e => .error e
      | .ok rest => .ok (⟨i, true, none, none, none, none, t⟩ :: rest)
    | none =>
      match sOp (chunks.getD i []) i (if B > 0 then tail else []) with
      | .error e => .error e
      | .ok s0 =>
        match (if s0.length < minChars then (eOp s0).map some else .ok none) with
        | .error e => .error e
        | .ok expOpt =>
          match runLoopGo sOp eOp chunks existing minChars B rem (i + 1)
              (if B > 0 then takeLastB B (expOpt.getD s0) else tail) with
          | .error e => .error e
          | .ok rest =>
            .ok (⟨i, false, some (if B > 0 then tail else []), some s0, expOpt,
                  some (trimEnd (expOpt.getD s0)), expOpt.getD s0⟩ :: rest)

/-- The orchestrator loop from the start: index 0, empty lastSummaryTail. -/
def runLoop (sOp : Str → Nat → Str → Except JsErr Str) (eOp : Str → Except JsErr Str)
    (chunks : List Str) (existing : Nat → Option Str) (minChars B : Nat) :
    Except JsErr (List StepInfo) :=
  runLoopGo sOp eOp chunks existing minChars B chunks.length 0 []

/-- The part files after the run: each write replaces the file content at
its index (writeText overwrites). -/
def fileAfterRun (files : Nat → Option Str) (steps : List StepInfo) (i : Nat) : Option Str :=
  steps.foldl
    (fun acc s => if s.index = i then (match s.written with | some t => some t | none => acc) else acc)
    (files i)

/-- How many remote calls a run made: one per summarize call, one per
expansion call. -/
def remoteCallCount (steps : List StepInfo) : Nat :=
  steps.foldl
    (fun a s => a + (if s.bridge.isSome then 1 else 0) + (if s.expanded.isSome then 1 else 0)) 0

structure RunResult where
  steps : List StepInfo
  finalParts : List (Option Str)
  missing : List Nat
  combined : Str
deriving DecidableEq

/-- Source main after the chunks are built: load the checkpoints, run the
loop, reload every part from disk, compute the missing indices for the
warning, and always produce the combined document. -/
def mainRun (chunks : List Str) (files : Nat → Option Str)
    (sOp : Str → Nat → Str → Except JsErr Str) (eOp : Str → Except JsErr Str)
    (minChars B : Nat) : Except JsErr RunResult :=
  match runLoop sOp eOp chunks (loadPart files) minChars B with
  | .error e => .error e
  | .ok steps =>
    let finalParts := (List.range chunks.length).map (loadPart (fileAfterRun files steps))
    .ok ⟨steps, finalParts, missingIdx 0 finalParts, combineParts finalParts⟩

/-!
Claim-side renderings, used to compare the source functions with the
wording of the specification.
-/

/-- Rendering of one combined section as the specification words it: the
label, then the content after a blank line, nothing when the content is
empty or absent. -/
def specSection (idx : Nat) (c : Option Str) : Str :=
  partHeader (idx + 1) ++ (if c.getD [] = [] then [] else sep ++ c.getD [])

/-- Specification-side combine scan. -/
def specCombineGo : Nat → List (Option Str) → List Str
  | _, [] => []
  | idx, c :: rest => specSection idx c :: specCombineGo (idx + 1) rest

/-- Specification-side combine: labelled sections joined by the blank-line
separator. -/
def specCombine (parts : List (Option Str)) : Str := joinSep sep (specCombineGo 0 parts)

/-- The lines at and after the first recognized speaker line. -/
def dropBeforeSpeaker (ls : List Str) : List Str :=
  ls.dropWhile (fun l => !(looksLikeSpeakerLine l))

/-- Clean-line condition for exact reconstruction: every empty line is
followed by a further line that is not a speaker line, so no block ends in
a blank line. -/
def okLinesB : List Str → Bool
  | [] => true
  | l :: rest =>
    (if l = [] then (!rest.isEmpty) && !(looksLikeSpeakerLine (rest.headD [])) else true)
      && okLinesB rest

/-- The first line of a block. -/
def firstLine (s : Str) : Str := s.takeWhile (fun c => !(c = '\n'))

/-!
A concrete oversized speaker turn: a speaker line padded to exactly
MAX_CHUNK_CHARS characters, a run of MAX_CHUNK_CHARS blank-line newlines,
and one final visible character.  The forced split cuts it at multiples of
MAX_CHUNK_CHARS, so the middle slice is the pure newline run.
-/

/-- A speaker line of exactly 32000 characters. -/
def cexSpk : Str := ("SPEAKER:").toList ++ ' ' :: List.replicate 31991 'x'

/-- A run of 32000 newline characters (32000 blank lines inside the turn). -/
def cexB : Str := List.replicate 32000 '\n'

/-- The transcript: one oversized speaker turn of 64001 characters. -/
def cexT : Str := cexSpk ++ (cexB ++ [ 'y' ])

/-!
Helper lemmas about the string model.
-/

theorem dropWhile_idem (p : Char → Bool) (l : Str) :
    List.dropWhile p (List.dropWhile p l) = List.dropWhile p l := by
  induction l with
  | nil => rfl
  | cons c t ih =>
    by_cases h : p c
    · simp [List.dropWhile_cons, h, ih]
    · simp [List.dropWhile_cons, h]

theorem trimEnd_idem (s : Str) : trimEnd (trimEnd s) = trimEnd s := by
  simp [trimEnd, dropWhile_idem]

theorem trim_trimEnd (s : Str) : trim (trimEnd s) = trim s := by
  simp [trim, trimEnd_idem]

theorem trimEnd_eq_nil_iff (s : Str) : trimEnd s = [] ↔ ∀ c ∈ s, isWS c := by
  constructor
  · intro h c hc
    have h' : List.dropWhile isWS s.reverse = [] := by
      have := congrArg List.reverse h
      simpa [trimEnd] using this
    exact (List.dropWhile_eq_nil_iff.mp h') c (by simpa using hc)
  · intro h
    have : List.dropWhile isWS s.reverse = [] :=
      List.dropWhile_eq_nil_iff.mpr (fun c hc => h c (by simpa using hc))
    simp [trimEnd, this]

theorem mem_of_mem_trimEnd {c : Char} {s : Str} (h : c ∈ trimEnd s) : c ∈ s := by
  have : c ∈ List.dropWhile isWS s.reverse := by simpa [trimEnd] using h
  have := (List.dropWhile_sublist (l := s.reverse) (p := isWS)).mem this
  simpa using this

theorem mem_of_mem_trimStart {c : Char} {s : Str} (h : c ∈ trimStart s) : c ∈ s :=
  (List.dropWhile_sublist (l := s) (p := isWS)).mem (by simpa [trimStart] using h)

theorem trim_eq_nil_iff (s : Str) : trim s = [] ↔ ∀ c ∈ s, isWS c := by
  constructor
  · intro h c hc
    by_contra hw
    have hsplit : s.reverse = List.takeWhile isWS s.reverse ++ List.dropWhile isWS s.reverse :=
      (List.takeWhile_append_dropWhile (p := isWS) (l := s.reverse)).symm
    have hmemr : c ∈ s.reverse := by simpa using hc
    rw [hsplit] at hmemr
    rcases List.mem_append.mp hmemr with h1 | h1
    · exact hw (List.mem_takeWhile_imp h1)
    · have hcte : c ∈ trimEnd s := by simpa [trimEnd] using h1
      have h2 : List.dropWhile isWS (trimEnd s) = [] := by simpa [trim, trimStart] using h
      exact hw ((List.dropWhile_eq_nil_iff.mp h2) c hcte)
  · intro h
    have h1 : ∀ c ∈ trimEnd s, isWS c := fun c hc => h c (mem_of_mem_trimEnd hc)
    simp [trim, trimStart, List.dropWhile_eq_nil_iff.mpr h1]

theorem trim_ne_nil_iff (s : Str) : trim s ≠ [] ↔ hasNonWS s = true := by
  rw [ne_eq, trim_eq_nil_iff, hasNonWS]
  simp

theorem hasNonWS_of_trim_ne_nil {s : Str} (h : trim s ≠ []) : hasNonWS s = true :=
  (trim_ne_nil_iff s).mp h

/-- Appending a whitespace-only suffix does not change trimEnd. -/
theorem trimEnd_append_ws {y : Str} (x : Str) (h : ∀ c ∈ y, isWS c) :
    trimEnd (x ++ y) = trimEnd x := by
  induction y using List.reverseRecOn with
  | nil => simp
  | append_singleton t c ih =>
    have hc : isWS c := h c (by simp)
    have ht : ∀ d ∈ t, isWS d := fun d hd => h d (by simp [hd])
    have : trimEnd (x ++ t ++ [c]) = trimEnd (x ++ t) := by
      simp [trimEnd, List.dropWhile_cons, hc]
    rw [← List.append_assoc] at *
    rw [this, ih ht]

/-- Appending a non-empty suffix that is a trimEnd fixed point leaves the whole a fixed point. -/
theorem trimEnd_append_fixed {y : Str} (x : Str) (hfix : trimEnd y = y) (hne : y ≠ []) :
    trimEnd (x ++ y) = x ++ y := by
  have hrev : List.dropWhile isWS y.reverse = y.reverse := by
    have := congrArg List.reverse hfix
    simpa [trimEnd] using this
  have hyne : y.reverse ≠ [] := by simpa using hne
  rcases hgd : y.reverse with _ | ⟨c, t⟩
  · exact absurd hgd hyne
  · have hnc : ¬ isWS c := by
      intro hws
      rw [hgd, List.dropWhile_cons, if_pos hws] at hrev
      have := congrArg List.length hrev
      have hle := (List.dropWhile_sublist (p := isWS) (l := t)).length_le
      simp at this
      omega
    have hy : (c :: t).reverse = y := by rw [← hgd]; simp
    have hstep : trimEnd (x ++ y) = (List.dropWhile isWS (y.reverse ++ x.reverse)).reverse := by
      simp [trimEnd]
    rw [hstep, hgd, List.cons_append, List.dropWhile_cons, if_neg hnc]
    simp [← hy]

/-- A non-empty trimEnd fixed point ends in a character that is not whitespace. -/
theorem trimEnd_fixed_ne_nil_hasNonWS {y : Str} (hfix : trimEnd y = y) (hne : y ≠ []) :
    hasNonWS y = true := by
  by_contra h
  have hall : ∀ c ∈ y, isWS c := by
    intro c hc
    by_contra hw
    exact h (by simp [hasNonWS]; exact ⟨c, hc, by simpa using hw⟩)
  have : trimEnd y = [] := (trimEnd_eq_nil_iff y).mpr hall
  exact hne (by rw [← hfix, this])

/-- joinSep over a list extended on the right. -/
theorem joinSep_append_single (s : Str) (xs : List Str) (b : Str) :
    joinSep s (xs ++ [b]) = joinSep s xs ++ (if xs = [] then [] else s) ++ b := by
  induction xs with
  | nil => simp [joinSep]
  | cons x t ih =>
    cases t with
    | nil => simp [joinSep]
    | cons y u =>
      have h1 : (x :: y :: u) ++ [b] = x :: y :: (u ++ [b]) := by simp
      rw [h1]
      simp only [joinSep]
      have h2 : y :: (u ++ [b]) = (y :: u) ++ [b] := by simp
      rw [h2, ih]
      simp [joinSep]

/-- Members of a joinSep come from the parts or the separator. -/
theorem mem_joinSep {c : Char} {s : Str} {xs : List Str} (h : c ∈ joinSep s xs) :
    (∃ x ∈ xs, c ∈ x) ∨ c ∈ s := by
  induction xs with
  | nil => simp [joinSep] at h
  | cons x t ih =>
    cases t with
    | nil =>
      simp [joinSep] at h
      exact Or.inl ⟨x, by simp, h⟩
    | cons y u =>
      simp only [joinSep, List.mem_append] at h
      rcases h with (h | h) | h
      · exact Or.inl ⟨x, by simp, h⟩
      · exact Or.inr h
      · rcases ih h with ⟨z, hz, hc⟩ | h
        · exact Or.inl ⟨z, by simp [hz], hc⟩
        · exact Or.inr h

/-- A sliceUp result is empty exactly for an empty block or a zero cap. -/
theorem sliceUp_eq_nil_iff (maxC : Nat) (b : Str) :
    sliceUp maxC b = [] ↔ (b.length = 0 ∨ maxC = 0) := by
  by_cases hb : b.length = 0
  · rw [sliceUp, if_pos hb]; simp [hb]
  · by_cases hm : maxC = 0
    · rw [sliceUp, if_neg hb, if_pos hm]; simp [hm]
    · rw [sliceUp, if_neg hb, if_neg hm]; simp [hb, hm]

/-- The concatenation of the slices of an oversized block is the block. -/
theorem sliceUp_join (maxC : Nat) (hM : 0 < maxC) (b : Str) :
    (sliceUp maxC b).flatten = b := by
  induction b using sliceUp.induct maxC with
  | case1 b hb =>
    rw [sliceUp, if_pos hb]
    simpa using (List.length_eq_zero.mp hb).symm
  | case2 b hb hM' => omega
  | case3 b hb hM' ih =>
    rw [sliceUp, if_neg hb, if_neg hM']
    simp only [List.flatten_cons, ih]
    exact List.take_append_drop maxC b

/-- Every slice of an oversized block has at most maxC characters. -/
theorem sliceUp_length_le (maxC : Nat) (b : Str) :
    ∀ c ∈ sliceUp maxC b, c.length ≤ maxC := by
  induction b using sliceUp.induct maxC with
  | case1 b hb => rw [sliceUp, if_pos hb]; simp
  | case2 b hb hM' => rw [sliceUp, if_neg hb, if_pos hM']; simp
  | case3 b hb hM' ih =>
    rw [sliceUp, if_neg hb, if_neg hM']
    intro c hc
    rcases List.mem_cons.mp hc with h | h
    · subst h; exact List.length_take_le maxC b
    · exact ih c h

/-- Every slice except the final one has exactly maxC characters. -/
theorem sliceUp_length_eq (maxC : Nat) (b : Str) :
    ∀ j, j + 1 < (sliceUp maxC b).length →
      ((sliceUp maxC b).getD j []).length = maxC := by
  induction b using sliceUp.induct maxC with
  | case1 b hb => rw [sliceUp, if_pos hb]; simp
  | case2 b hb hM' =>
    rw [sliceUp, if_neg hb, if_pos hM']
    simp
  | case3 b hb hM' ih =>
    rw [sliceUp, if_neg hb, if_neg hM']
    intro j hj
    cases j with
    | zero =>
      simp only [List.getD_cons_zero, List.length_take]
      have hne : sliceUp maxC (b.drop maxC) ≠ [] := by
        intro h0
        rw [h0] at hj
        simp at hj
      have hlen : ¬ ((b.drop maxC).length = 0 ∨ maxC = 0) :=
        fun h => hne ((sliceUp_eq_nil_iff maxC (b.drop maxC)).mpr h)
      push_neg at hlen
      simp only [List.length_drop] at hlen
      omega
    | succ k =>
      simp only [List.getD_cons_succ]
      exact ih k (by simpa using hj)

theorem trimEnd_length_le (s : Str) : (trimEnd s).length ≤ s.length := by
  have := (List.dropWhile_sublist (p := isWS) (l := s.reverse)).length_le
  simpa [trimEnd] using this

/-!
Case analysis of one Chunk Builder iteration.
-/

/-- buildStep on an oversized block: flush the non-empty buffer, emit the slices. -/
theorem buildStep_over (target maxC : Nat) (cur b : Str) (hb : b.length > maxC) :
    buildStep target maxC cur b
      = ((if (trim cur).length > 0 then [trimEnd cur] else []) ++ sliceUp maxC b, []) := by
  rw [buildStep, if_pos hb]

/-- buildStep on a block within the cap: either some flush condition fired, the
buffer is emitted right-trimmed and the new buffer is the block alone, or no
condition fired and the block is appended to the buffer with a separator. -/
theorem buildStep_not_over (target maxC : Nat) (cur b : Str) (hb : ¬ b.length > maxC) :
    (cur.length > 0 ∧ (cur.length + (sep ++ b).length > maxC ∨ cur.length ≥ target) ∧
       buildStep target maxC cur b = ([trimEnd cur], b))
  ∨ (¬(cur.length > 0 ∧ cur.length + (sep ++ b).length > maxC) ∧
     ¬(cur.length > 0 ∧ cur.length ≥ target) ∧
       buildStep target maxC cur b = ([], cur ++ (if cur.length > 0 then sep else []) ++ b)) := by
  by_cases h1 : cur.length > 0 ∧ cur.length + ((if cur.length > 0 then sep else []) ++ b).length > maxC
  · left
    refine ⟨h1.1, Or.inl (by simpa [if_pos h1.1] using h1.2), ?_⟩
    rw [buildStep, if_neg hb]
    simp only [if_pos h1]
    simp
  · by_cases h2 : cur.length > 0 ∧ cur.length ≥ target
    · left
      refine ⟨h2.1, Or.inr h2.2, ?_⟩
      rw [buildStep, if_neg hb]
      simp only [if_neg h1, if_pos h2]
      simp [h2.1]
    · right
      refine ⟨fun h => h1 (by simpa [if_pos h.1] using h), h2, ?_⟩
      rw [buildStep, if_neg hb]
      simp only [if_neg h1, if_neg h2]

/-- The buffer invariant: emitted chunks and the next buffer stay within the cap. -/
theorem buildStep_bound (target maxC : Nat) (cur b : Str)
    (hcur : cur.length ≤ maxC) (hb : b.length ≤ maxC) :
    (∀ c ∈ (buildStep target maxC cur b).1, c.length ≤ maxC) ∧
    (buildStep target maxC cur b).2.length ≤ maxC := by
  rcases buildStep_not_over target maxC cur b (by omega) with ⟨_, _, heq⟩ | ⟨hn1, _, heq⟩
  · rw [heq]
    constructor
    · intro c hc
      simp at hc
      subst hc
      exact le_trans (trimEnd_length_le cur) hcur
    · exact hb
  · rw [heq]
    refine ⟨by simp, ?_⟩
    by_cases hc0 : cur.length > 0
    · have : ¬ cur.length + (sep ++ b).length > maxC := fun h => hn1 ⟨hc0, h⟩
      simp only [if_pos hc0]
      simp only [List.length_append, sep, List.length_cons, List.length_nil] at this ⊢
      omega
    · simp only [if_neg hc0]
      simp at hc0
      simp [hc0, hb]

theorem buildLoop_length_le (target maxC : Nat) :
    ∀ (blocks : List Str) (cur : Str), cur.length ≤ maxC →
      ∀ c ∈ buildLoop target maxC blocks cur, c.length ≤ maxC := by
  intro blocks
  induction blocks with
  | nil =>
    intro cur hcur c hc
    rw [buildLoop] at hc
    by_cases h : (trim cur).length > 0
    · rw [if_pos h] at hc
      simp at hc
      subst hc
      exact le_trans (trimEnd_length_le cur) hcur
    · rw [if_neg h] at hc
      simp at hc
  | cons b rest ih =>
    intro cur hcur c hc
    rw [buildLoop] at hc
    by_cases hb : b.length > maxC
    · rw [buildStep_over target maxC cur b hb] at hc
      simp only [List.mem_append] at hc
      rcases hc with (hc | hc) | hc
      · by_cases h : (trim cur).length > 0
        · rw [if_pos h] at hc
          simp at hc
          subst hc
          exact le_trans (trimEnd_length_le cur) hcur
        · rw [if_neg h] at hc
          simp at hc
      · exact sliceUp_length_le maxC b c hc
      · exact ih [] (by simp) c hc
    · have hbnd := buildStep_bound target maxC cur b hcur (by omega)
      rcases List.mem_append.mp hc with hc | hc
      · exact hbnd.1 c hc
      · exact ih _ hbnd.2 c hc

/-- Every block of an oversized run contributes its slices as a contiguous
segment of the chunk list. -/
theorem buildLoop_slices_contig (target maxC : Nat) :
    ∀ (blocks : List Str) (cur : Str) (b : Str), b ∈ blocks → b.length > maxC →
      ∃ pre post, pre ++ sliceUp maxC b ++ post = buildLoop target maxC blocks cur := by
  intro blocks
  induction blocks with
  | nil =>
    intro cur b hmem
    simp at hmem
  | cons x rest ih =>
    intro cur b hmem hlen
    rcases List.mem_cons.mp hmem with rfl | hmem
    · rw [buildLoop, buildStep_over target maxC cur b hlen]
      exact ⟨(if (trim cur).length > 0 then [trimEnd cur] else []),
             buildLoop target maxC rest [], by simp⟩
    · rw [buildLoop]
      rcases ih (buildStep target maxC cur x).2 b hmem hlen with ⟨pre, post, hpp⟩
      exact ⟨(buildStep target maxC cur x).1 ++ pre, post, by rw [← hpp]; simp⟩

/-- C3: for every block sequence and thresholds T less or equal M, every chunk
produced by the Chunk Builder has length at most M; a block longer than M is
emitted as consecutive slices of exactly M characters each, the final slice
possibly shorter, whose concatenation is the block, as a contiguous segment of
the chunk list. -/
theorem chunkBuilder_length_bound (blocks : List Str) (target maxC : Nat)
    (_hTM : target ≤ maxC) (hM : 0 < maxC) :
    (∀ c ∈ buildChunksFromBlocks blocks target maxC, c.length ≤ maxC) ∧
    (∀ b ∈ blocks, maxC < b.length →
      (∃ pre post, pre ++ sliceUp maxC b ++ post = buildChunksFromBlocks blocks target maxC) ∧
      (sliceUp maxC b).flatten = b ∧
      (∀ j, j + 1 < (sliceUp maxC b).length → ((sliceUp maxC b).getD j []).length = maxC)) := by
  constructor
  · exact buildLoop_length_le target maxC blocks [] (by simp)
  · intro b hmem hlen
    exact ⟨buildLoop_slices_contig target maxC blocks [] b hmem (by omega),
           sliceUp_join maxC hM b, sliceUp_length_eq maxC b⟩

/-- Evaluation of the lone-oversized-block scenario: a block of 500 letters
with target 100 and cap 200 is cut into pieces of 200, 200 and 100. -/
theorem buildChunks_replicate_500 :
    buildChunksFromBlocks [List.replicate 500 'a'] 100 200
      = [List.replicate 200 'a', List.replicate 200 'a', List.replicate 100 'a'] := by
  rw [buildChunksFromBlocks, buildLoop, buildStep_over 100 200 [] (List.replicate 500 'a') (by simp)]
  rw [buildLoop]
  rw [sliceUp]
  simp only [List.length_replicate, List.take_replicate, List.drop_replicate]
  norm_num
  rw [sliceUp]
  simp only [List.length_replicate, List.take_replicate, List.drop_replicate]
  norm_num
  rw [sliceUp]
  simp only [List.length_replicate, List.take_replicate, List.drop_replicate]
  norm_num
  rw [sliceUp]
  simp [trim, trimStart, trimEnd]


theorem WFBlock.ne_nil {b : Str} (h : WFBlock b) : b ≠ [] := by
  intro hb
  subst hb
  exact h.2 (by simp [trim, trimStart, trimEnd])

theorem joinSep_ne_nil {xs : List Str} (s : Str) (hne : xs ≠ []) (hx : ∀ x ∈ xs, x ≠ []) :
    joinSep s xs ≠ [] := by
  cases xs with
  | nil => exact absurd rfl hne
  | cons x t =>
    cases t with
    | nil => exact hx x (by simp)
    | cons y u =>
      simp only [joinSep]
      intro h
      rcases List.append_eq_nil.mp h with ⟨h1, _⟩
      rcases List.append_eq_nil.mp h1 with ⟨h2, _⟩
      exact hx x (by simp) h2

theorem trimEnd_joinSep_fixed {xs : List Str} (hwf : ∀ x ∈ xs, WFBlock x) :
    trimEnd (joinSep sep xs) = joinSep sep xs := by
  induction xs with
  | nil => simp [joinSep, trimEnd]
  | cons x t ih =>
    cases t with
    | nil => exact (hwf x (by simp)).1
    | cons y u =>
      have hwft : ∀ z ∈ y :: u, WFBlock z := fun z hz => hwf z (by simp [hz])
      have hJfix := ih hwft
      have hJne : joinSep sep (y :: u) ≠ [] :=
        joinSep_ne_nil sep (by simp) (fun z hz => (hwft z hz).ne_nil)
      have := trimEnd_append_fixed (x ++ sep) hJfix hJne
      simpa [joinSep, List.append_assoc] using this

theorem hasNonWS_joinSep {xs : List Str} {x : Str} (s : Str) (hx : x ∈ xs)
    (h : hasNonWS x = true) : hasNonWS (joinSep s xs) = true := by
  induction xs with
  | nil => simp at hx
  | cons a t ih =>
    cases t with
    | nil =>
      simp at hx
      subst hx
      simpa [joinSep] using h
    | cons y u =>
      simp only [joinSep, hasNonWS, List.any_append]
      rcases List.mem_cons.mp hx with rfl | hx
      · simp [hasNonWS] at h
        rcases h with ⟨c, hc, hw⟩
        exact by simp; exact Or.inl (Or.inl ⟨c, hc, hw⟩)
      · have := ih hx
        simp [hasNonWS] at this
        rcases this with ⟨c, hc, hw⟩
        exact by simp; exact Or.inr ⟨c, hc, hw⟩

theorem trim_joinSep_pos {xs : List Str} (hne : xs ≠ []) (hwf : ∀ x ∈ xs, WFBlock x) :
    (trim (joinSep sep xs)).length > 0 := by
  cases xs with
  | nil => exact absurd rfl hne
  | cons x t =>
    have hx : hasNonWS x = true := hasNonWS_of_trim_ne_nil (hwf x (by simp)).2
    have := @hasNonWS_joinSep (x :: t) x sep (by simp) hx
    have hnn : trim (joinSep sep (x :: t)) ≠ [] := (trim_ne_nil_iff _).mpr this
    have := List.length_pos.mpr hnn
    omega

theorem joinSep_pos_iff {xs : List Str} (hwf : ∀ x ∈ xs, WFBlock x) :
    (joinSep sep xs).length > 0 ↔ xs ≠ [] := by
  constructor
  · intro h hx
    subst hx
    simp [joinSep] at h
  · intro h
    have := joinSep_ne_nil sep h (fun z hz => (hwf z hz).ne_nil)
    have := List.length_pos.mpr this
    omega

/-- The groups partition the input blocks: flattening the constituent
blocks of all groups gives back the block sequence. -/
theorem buildGroupsGo_parts (target maxC : Nat) :
    ∀ (blocks curBs : List Str),
      ((buildGroupsGo target maxC blocks curBs).map groupParts).flatten = curBs ++ blocks := by
  intro blocks
  induction blocks with
  | nil =>
    intro curBs
    by_cases h : curBs = []
    · simp [buildGroupsGo, h, groupParts]
    · simp [buildGroupsGo, h, groupParts]
  | cons b rest ih =>
    intro curBs
    rw [buildGroupsGo]
    by_cases hb : b.length > maxC
    · rw [if_pos hb]
      by_cases h : curBs = []
      · simp [h, groupParts, ih]
      · simp [h, groupParts, ih]
    · rw [if_neg hb]
      by_cases h1 : (joinSep sep curBs).length > 0 ∧
          (joinSep sep curBs).length + (sep ++ b).length > maxC
      · rw [if_pos h1]
        simp [groupParts, ih]
      · rw [if_neg h1]
        by_cases h2 : (joinSep sep curBs).length > 0 ∧ (joinSep sep curBs).length ≥ target
        · rw [if_pos h2]
          simp [groupParts, ih]
        · rw [if_neg h2, ih]
          simp

/-- The source chunk scan agrees with the group scan: the chunks are the
rendered groups, provided all blocks are well formed. -/
theorem buildLoop_eq_groups (target maxC : Nat) :
    ∀ (blocks curBs : List Str), (∀ x ∈ blocks, WFBlock x) → (∀ x ∈ curBs, WFBlock x) →
      buildLoop target maxC blocks (joinSep sep curBs)
        = ((buildGroupsGo target maxC blocks curBs).map (groupChunks maxC)).flatten := by
  intro blocks
  induction blocks with
  | nil =>
    intro curBs _ hwfc
    rw [buildLoop, buildGroupsGo]
    by_cases h : curBs = []
    · subst h
      simp [joinSep, trim, trimStart, trimEnd]
    · rw [if_neg h, if_pos (trim_joinSep_pos h hwfc)]
      simp [groupChunks, trimEnd_joinSep_fixed hwfc]
  | cons b rest ih =>
    intro curBs hwfb hwfc
    have hwfrest : ∀ x ∈ rest, WFBlock x := fun x hx => hwfb x (by simp [hx])
    have hwfhd : WFBlock b := hwfb b (by simp)
    rw [buildLoop, buildGroupsGo]
    by_cases hb : b.length > maxC
    · rw [buildStep_over target maxC _ b hb, if_pos hb]
      have hrest := ih [] hwfrest (by simp)
      simp only [joinSep] at hrest
      by_cases h : curBs = []
      · subst h
        rw [if_neg (by simp [joinSep, trim, trimStart, trimEnd])]
        simp [joinSep, groupChunks, hrest]
      · rw [if_pos (trim_joinSep_pos h hwfc), if_neg h]
        simp [groupChunks, trimEnd_joinSep_fixed hwfc, hrest]
    · rw [if_neg hb]
      by_cases h1 : (joinSep sep curBs).length > 0 ∧
          (joinSep sep curBs).length + (sep ++ b).length > maxC
      · have hstep : buildStep target maxC (joinSep sep curBs) b = ([trimEnd (joinSep sep curBs)], b) := by
          rcases buildStep_not_over target maxC (joinSep sep curBs) b hb with ⟨_, _, heq⟩ | ⟨hn1, _, _⟩
          · exact heq
          · exact absurd h1 hn1
        rw [hstep, if_pos h1]
        have hrest := ih [b] hwfrest (by intro z hz; simp at hz; subst hz; exact hwfhd)
        simp only [joinSep] at hrest
        simp [groupChunks, trimEnd_joinSep_fixed hwfc, hrest]
      · rw [if_neg h1]
        by_cases h2 : (joinSep sep curBs).length > 0 ∧ (joinSep sep curBs).length ≥ target
        · have hstep : buildStep target maxC (joinSep sep curBs) b
              = ([trimEnd (joinSep sep curBs)], b) := by
            rcases buildStep_not_over target maxC (joinSep sep curBs) b hb with ⟨_, _, heq⟩ | ⟨_, hn2, _⟩
            · exact heq
            · exact absurd h2 hn2
          rw [hstep, if_pos h2]
          have hrest := ih [b] hwfrest (by intro z hz; simp at hz; subst hz; exact hwfhd)
          simp only [joinSep] at hrest
          simp [groupChunks, trimEnd_joinSep_fixed hwfc, hrest]
        · have hstep : buildStep target maxC (joinSep sep curBs) b
              = ([], joinSep sep curBs ++
                  (if (joinSep sep curBs).length > 0 then sep else []) ++ b) := by
            rcases buildStep_not_over target maxC (joinSep sep curBs) b hb with ⟨hc, hor, _⟩ | ⟨_, _, heq⟩
            · rcases hor with hA | hB
              · exact absurd ⟨hc, hA⟩ h1
              · exact absurd ⟨hc, hB⟩ h2
            · exact heq
          rw [hstep, if_neg h2]
          have hnew : joinSep sep curBs ++
              (if (joinSep sep curBs).length > 0 then sep else []) ++ b
                = joinSep sep (curBs ++ [b]) := by
            rw [joinSep_append_single]
            by_cases h : curBs = []
            · simp [h, joinSep]
            · rw [if_neg h, if_pos ((joinSep_pos_iff hwfc).mpr h)]
          rw [hnew]
          have hwfc' : ∀ x ∈ curBs ++ [b], WFBlock x := by
            intro z hz
            rcases List.mem_append.mp hz with hz | hz
            · exact hwfc z hz
            · simp at hz; subst hz; exact hwfhd
          simp [ih (curBs ++ [b]) hwfrest hwfc']

/-- C2: for every sequence of well-formed blocks, the Chunk Builder drops,
duplicates and reorders nothing: chunks are exactly the rendered groups,
the constituent blocks of the groups flatten back to the input sequence,
slices of an oversized block concatenate back to that block, and the empty
block sequence yields zero chunks. -/
theorem chunkBuilder_no_block_lost (blocks : List Str) (target maxC : Nat)
    (hM : 0 < maxC) (hwf : ∀ b ∈ blocks, WFBlock b) :
    buildChunksFromBlocks blocks target maxC
        = ((buildGroups blocks target maxC).map (groupChunks maxC)).flatten ∧
    ((buildGroups blocks target maxC).map groupParts).flatten = blocks ∧
    (∀ b ∈ blocks, maxC < b.length → (sliceUp maxC b).flatten = b) ∧
    buildChunksFromBlocks [] target maxC = [] := by
  refine ⟨?_, ?_, fun b _ _ => sliceUp_join maxC hM b, ?_⟩
  · have := buildLoop_eq_groups target maxC blocks [] hwf (by simp)
    simpa [buildChunksFromBlocks, buildGroups, joinSep] using this
  · simpa using buildGroupsGo_parts target maxC blocks []
  · rw [buildChunksFromBlocks, buildLoop]
    simp [trim, trimStart, trimEnd]

/-!
Orchestrator loop structure.
-/

/-- Inversion of one successful iteration of the orchestrator loop. -/
theorem runLoopGo_succ_inv (sOp : Str → Nat → Str → Except JsErr Str)
    (eOp : Str → Except JsErr Str) (chunks : List Str) (existing : Nat → Option Str)
    (minChars B rem i : Nat) (tail : Str) (steps : List StepInfo)
    (h : runLoopGo sOp eOp chunks existing minChars B (rem + 1) i tail = .ok steps) :
    ∃ s rest, steps = s :: rest ∧ s.index = i ∧
      ((∃ t, jsTruthy (existing i) = some t ∧ s = ⟨i, true, none, none, none, none, t⟩ ∧
          runLoopGo sOp eOp chunks existing minChars B rem (i + 1)
            (if B > 0 then takeLastB B t else tail) = .ok rest)
       ∨ (jsTruthy (existing i) = none ∧
          ∃ s0 expOpt, sOp (chunks.getD i []) i (if B > 0 then tail else []) = .ok s0 ∧
            (if s0.length < minChars then (eOp s0).map some else .ok none) = .ok expOpt ∧
            s = ⟨i, false, some (if B > 0 then tail else []), some s0, expOpt,
                 some (trimEnd (expOpt.getD s0)), expOpt.getD s0⟩ ∧
            runLoopGo sOp eOp chunks existing minChars B rem (i + 1)
              (if B > 0 then takeLastB B (expOpt.getD s0) else tail) = .ok rest)) := by
  rw [runLoopGo] at h
  cases htr : jsTruthy (existing i) with
  | some t =>
    rw [htr] at h
    dsimp only at h
    cases hrec : runLoopGo sOp eOp chunks existing minChars B rem (i + 1)
        (if B > 0 then takeLastB B t else tail) with
    | error e => rw [hrec] at h; simp at h
    | ok rest =>
      rw [hrec] at h
      dsimp only at h
      injection h with h2
      exact ⟨_, rest, h2.symm, rfl, Or.inl ⟨t, rfl, rfl, hrec⟩⟩
  | none =>
    rw [htr] at h
    dsimp only at h
    cases hs : sOp (chunks.getD i []) i (if B > 0 then tail else []) with
    | error e => rw [hs] at h; simp at h
    | ok s0 =>
      rw [hs] at h
      dsimp only at h
      cases hexp : (if s0.length < minChars then (eOp s0).map some else .ok none :
          Except JsErr (Option Str)) with
      | error e => rw [hexp] at h; simp at h
      | ok expOpt =>
        rw [hexp] at h
        dsimp only at h
        cases hrec : runLoopGo sOp eOp chunks existing minChars B rem (i + 1)
            (if B > 0 then takeLastB B (expOpt.getD s0) else tail) with
        | error e => rw [hrec] at h; simp at h
        | ok rest =>
          rw [hrec] at h
          dsimp only at h
          injection h with h2
          exact ⟨_, rest, h2.symm, rfl, Or.inr ⟨rfl, s0, expOpt, rfl, hexp, rfl, hrec⟩⟩

/-- A successful loop from index i produces one step per remaining index,
indexed consecutively. -/
theorem runLoopGo_ok_shape (sOp : Str → Nat → Str → Except JsErr Str)
    (eOp : Str → Except JsErr Str) (chunks : List Str) (existing : Nat → Option Str)
    (minChars B : Nat) :
    ∀ (rem i : Nat) (tail : Str) (steps : List StepInfo),
      runLoopGo sOp eOp chunks existing minChars B rem i tail = .ok steps →
      steps.length = rem ∧ ∀ j (h : j < steps.length), (steps.get ⟨j, h⟩).index = i + j := by
  intro rem
  induction rem with
  | zero =>
    intro i tail steps h
    rw [runLoopGo] at h
    injection h with h2
    subst h2
    exact ⟨rfl, fun j hj => by simp at hj⟩
  | succ rem ih =>
    intro i tail steps h
    obtain ⟨s, rest, hcons, hidx, hbr⟩ := runLoopGo_succ_inv sOp eOp chunks existing
      minChars B rem i tail steps h
    subst hcons
    have hrec : ∃ tail2, runLoopGo sOp eOp chunks existing minChars B rem (i + 1) tail2
        = .ok rest := by
      rcases hbr with ⟨t, _, _, hr⟩ | ⟨_, s0, expOpt, _, _, _, hr⟩
      · exact ⟨_, hr⟩
      · exact ⟨_, hr⟩
    obtain ⟨tail2, hr⟩ := hrec
    obtain ⟨hlen, hidxs⟩ := ih (i + 1) tail2 rest hr
    refine ⟨by simp [hlen], ?_⟩
    intro j hj
    cases j with
    | zero => simpa using hidx
    | succ j =>
      have hj' : j < rest.length := by simpa using hj
      have := hidxs j hj'
      simp only [List.get_cons_succ]
      rw [this]
      omega

/-- Per-step structure of a successful run: a resumed step carries the
loaded checkpoint text and makes no call and no write; a fresh step records
one summarize call, the conditional single expansion, and the write of the
right-trimmed final text. -/
theorem runLoopGo_ok_steps (sOp : Str → Nat → Str → Except JsErr Str)
    (eOp : Str → Except JsErr Str) (chunks : List Str) (existing : Nat → Option Str)
    (minChars B : Nat) :
    ∀ (rem i : Nat) (tail : Str) (steps : List StepInfo),
      runLoopGo sOp eOp chunks existing minChars B rem i tail = .ok steps →
      ∀ s ∈ steps,
        (s.resumed = true ∧ (∃ t, jsTruthy (existing s.index) = some t ∧ s.finalText = t) ∧
           s.bridge = none ∧ s.firstPass = none ∧ s.expanded = none ∧ s.written = none)
        ∨ (s.resumed = false ∧ jsTruthy (existing s.index) = none ∧
           ∃ b s0, s.bridge = some b ∧ sOp (chunks.getD s.index []) s.index b = .ok s0 ∧
             s.firstPass = some s0 ∧
             ((s0.length < minChars ∧ ∃ t, eOp s0 = .ok t ∧ s.expanded = some t ∧
                 s.finalText = t)
              ∨ (¬ s0.length < minChars ∧ s.expanded = none ∧ s.finalText = s0)) ∧
             s.written = some (trimEnd s.finalText)) := by
  intro rem
  induction rem with
  | zero =>
    intro i tail steps h
    rw [runLoopGo] at h
    injection h with h2
    subst h2
    intro s hs
    exact absurd hs (List.not_mem_nil s)
  | succ rem ih =>
    intro i tail steps h s hs
    obtain ⟨s1, rest, hcons, hidx, hbr⟩ := runLoopGo_succ_inv sOp eOp chunks existing
      minChars B rem i tail steps h
    subst hcons
    rcases List.mem_cons.mp hs with rfl | hs
    · rcases hbr with ⟨t, htr, hsv, _⟩ | ⟨htr, s0, expOpt, hsop, hexp, hsv, _⟩
      · subst hsv
        exact Or.inl ⟨rfl, ⟨t, htr, rfl⟩, rfl, rfl, rfl, rfl⟩
      · subst hsv
        refine Or.inr ⟨rfl, htr, (if B > 0 then tail else []), s0, rfl, hsop, rfl, ?_, rfl⟩
        by_cases hlen : s0.length < minChars
        · rw [if_pos hlen] at hexp
          cases he : eOp s0 with
          | error e => rw [he] at hexp; simp [Except.map] at hexp
          | ok t =>
            rw [he] at hexp
            simp only [Except.map] at hexp
            injection hexp with h2
            subst h2
            exact Or.inl ⟨hlen, t, rfl, rfl, rfl⟩
        · rw [if_neg hlen] at hexp
          injection hexp with h2
          subst h2
          exact Or.inr ⟨hlen, rfl, rfl⟩
    · rcases hbr with ⟨t, _, _, hr⟩ | ⟨_, s0, expOpt, _, _, _, hr⟩
      · exact ih (i + 1) _ rest hr s hs
      · exact ih (i + 1) _ rest hr s hs

/-- Every step of a successful loop has its index inside the processed range. -/
theorem runLoopGo_index_range (sOp : Str → Nat → Str → Except JsErr Str)
    (eOp : Str → Except JsErr Str) (chunks : List Str) (existing : Nat → Option Str)
    (minChars B : Nat) :
    ∀ (rem i : Nat) (tail : Str) (steps : List StepInfo),
      runLoopGo sOp eOp chunks existing minChars B rem i tail = .ok steps →
      ∀ s ∈ steps, i ≤ s.index ∧ s.index < i + rem := by
  intro rem
  induction rem with
  | zero =>
    intro i tail steps h
    rw [runLoopGo] at h
    injection h with h2
    subst h2
    intro s hs
    exact absurd hs (List.not_mem_nil s)
  | succ rem ih =>
    intro i tail steps h s hs
    obtain ⟨s1, rest, hcons, hidx, hbr⟩ := runLoopGo_succ_inv sOp eOp chunks existing
      minChars B rem i tail steps h
    subst hcons
    rcases List.mem_cons.mp hs with rfl | hs
    · omega
    · have : i + 1 ≤ s.index ∧ s.index < i + 1 + rem := by
        rcases hbr with ⟨t, _, _, hr⟩ | ⟨_, s0, expOpt, _, _, _, hr⟩
        · exact ih (i + 1) _ rest hr s hs
        · exact ih (i + 1) _ rest hr s hs
      omega

/-- The bridge chain: when bridging is enabled, a fresh head step receives
the incoming tail, and every later fresh step receives the last B characters
of the final text of the step before it. -/
theorem runLoopGo_bridge (sOp : Str → Nat → Str → Except JsErr Str)
    (eOp : Str → Except JsErr Str) (chunks : List Str) (existing : Nat → Option Str)
    (minChars B : Nat) (hB : 0 < B) :
    ∀ (rem i : Nat) (tail : Str) (steps : List StepInfo),
      runLoopGo sOp eOp chunks existing minChars B rem i tail = .ok steps →
      (∀ h0 : 0 < steps.length, (steps.get ⟨0, h0⟩).resumed = false →
          (steps.get ⟨0, h0⟩).bridge = some tail) ∧
      (∀ j (h : j + 1 < steps.length), (steps.get ⟨j + 1, h⟩).resumed = false →
          (steps.get ⟨j + 1, h⟩).bridge
            = some (takeLastB B ((steps.get ⟨j, by omega⟩).finalText))) := by
  intro rem
  induction rem with
  | zero =>
    intro i tail steps h
    rw [runLoopGo] at h
    injection h with h2
    subst h2
    exact ⟨fun h0 => absurd h0 (by simp), fun j hj => absurd hj (by simp)⟩
  | succ rem ih =>
    intro i tail steps h
    obtain ⟨s, rest, hcons, hidx, hbr⟩ := runLoopGo_succ_inv sOp eOp chunks existing
      minChars B rem i tail steps h
    subst hcons
    have hmain : (∃ hr2 : runLoopGo sOp eOp chunks existing minChars B rem (i + 1)
          (takeLastB B s.finalText) = .ok rest,
        (s.resumed = false → s.bridge = some tail)) := by
      rcases hbr with ⟨t, htr, hsv, hr⟩ | ⟨htr, s0, expOpt, hsop, hexp, hsv, hr⟩
      · subst hsv
        rw [if_pos hB] at hr
        exact ⟨hr, fun hres => by simp at hres⟩
      · subst hsv
        rw [if_pos hB] at hr
        exact ⟨hr, fun _ => by rw [if_pos hB]⟩
    obtain ⟨hr, hhead⟩ := hmain
    obtain ⟨ih1, ih2⟩ := ih (i + 1) (takeLastB B s.finalText) rest hr
    refine ⟨fun h0 hres => ?_, fun j hj hres => ?_⟩
    · simp only [List.get_cons_zero] at hres ⊢
      exact hhead hres
    · cases j with
      | zero =>
        simp only [List.get_cons_succ, List.get_cons_zero] at hres ⊢
        exact ih1 (by simpa using hj) hres
      | succ j =>
        simp only [List.get_cons_succ] at hres ⊢
        exact ih2 j (by simpa using hj) hres

/-- When every remaining index has a truthy checkpoint, the loop succeeds,
resumes everything, and performs no call and no write. -/
theorem runLoopGo_all_truthy (sOp : Str → Nat → Str → Except JsErr Str)
    (eOp : Str → Except JsErr Str) (chunks : List Str) (existing : Nat → Option Str)
    (minChars B : Nat) :
    ∀ (rem i : Nat) (tail : Str),
      (∀ m, i ≤ m → m < i + rem → (jsTruthy (existing m)).isSome) →
      ∃ steps, runLoopGo sOp eOp chunks existing minChars B rem i tail = .ok steps ∧
        ∀ s ∈ steps, s.resumed = true ∧ s.bridge = none ∧ s.expanded = none ∧
          s.written = none := by
  intro rem
  induction rem with
  | zero =>
    intro i tail _
    exact ⟨[], by rw [runLoopGo], fun s hs => absurd hs (List.not_mem_nil s)⟩
  | succ rem ih =>
    intro i tail htr
    have hi : (jsTruthy (existing i)).isSome := htr i le_rfl (by omega)
    obtain ⟨t, ht⟩ := Option.isSome_iff_exists.mp hi
    obtain ⟨rest, hr, hprop⟩ := ih (i + 1) (if B > 0 then takeLastB B t else tail)
      (fun m h1 h2 => htr m (by omega) (by omega))
    refine ⟨⟨i, true, none, none, none, none, t⟩ :: rest, ?_, ?_⟩
    · rw [runLoopGo, ht]
      dsimp only
      rw [hr]
    · intro s hs
      rcases List.mem_cons.mp hs with rfl | hs
      · exact ⟨rfl, rfl, rfl, rfl⟩
      · exact hprop s hs

/-- Unfolding of the part files after a run, one step at a time. -/
theorem fileAfterRun_cons (files : Nat → Option Str) (s : StepInfo)
    (rest : List StepInfo) (m : Nat) :
    fileAfterRun files (s :: rest) m
      = fileAfterRun
          (fun j => if s.index = j then
              (match s.written with | some t => some t | none => files j)
            else files j)
          rest m := by
  simp only [fileAfterRun, List.foldl_cons]

/-- Steps whose indices avoid m leave the file at m unchanged. -/
theorem fileAfterRun_not_mem (files : Nat → Option Str) (steps : List StepInfo) (m : Nat)
    (h : ∀ s ∈ steps, s.index ≠ m) : fileAfterRun files steps m = files m := by
  induction steps generalizing files with
  | nil => rfl
  | cons s rest ih =>
    rw [fileAfterRun_cons]
    rw [ih _ (fun z hz => h z (by simp [hz]))]
    rw [if_neg (h s (by simp) )]

/-- Steps that write nothing leave every file unchanged. -/
theorem fileAfterRun_no_writes (files : Nat → Option Str) (steps : List StepInfo) (m : Nat)
    (h : ∀ s ∈ steps, s.written = none) : fileAfterRun files steps m = files m := by
  induction steps generalizing files with
  | nil => rfl
  | cons s rest ih =>
    rw [fileAfterRun_cons]
    rw [ih _ (fun z hz => h z (by simp [hz]))]
    rw [h s (by simp)]
    by_cases hx : s.index = m
    · rw [if_pos hx]
    · rw [if_neg hx]

/-- Steps that make no call count zero remote calls. -/
theorem remoteCallCount_zero (steps : List StepInfo)
    (h : ∀ s ∈ steps, s.bridge = none ∧ s.expanded = none) :
    remoteCallCount steps = 0 := by
  suffices hgen : ∀ (l : List StepInfo) (a : Nat),
      (∀ s ∈ l, s.bridge = none ∧ s.expanded = none) →
      l.foldl (fun a s => a + (if s.bridge.isSome then 1 else 0) +
        (if s.expanded.isSome then 1 else 0)) a = a by
    exact hgen steps 0 h
  intro l
  induction l with
  | nil => intro a _; rfl
  | cons s rest ih =>
    intro a hl
    have h1 := (hl s (by simp)).1
    have h2 := (hl s (by simp)).2
    simp only [List.foldl_cons, h1, h2, Option.isSome_none, Bool.false_eq_true, if_false,
      Nat.add_zero]
    exact ih a (fun z hz => hl z (by simp [hz]))

/-- The files after a run depend on the prior state only at the same index. -/
theorem fileAfterRun_eq_init (f g : Nat → Option Str) (steps : List StepInfo) (m : Nat)
    (h : f m = g m) : fileAfterRun f steps m = fileAfterRun g steps m := by
  simp [fileAfterRun, h]

/-- After a successful run over fresh oracles whose outputs survive
trimming, every processed index holds a truthy part file, and indices
outside the processed range are untouched. -/
theorem runLoopGo_idempotent (sOp : Str → Nat → Str → Except JsErr Str)
    (eOp : Str → Except JsErr Str) (chunks : List Str) (minChars B : Nat)
    (hS : ∀ c i b s, sOp c i b = .ok s → trim s ≠ [])
    (hE : ∀ s t, eOp s = .ok t → trim t ≠ []) :
    ∀ (rem i : Nat) (tail : Str) (steps : List StepInfo) (files : Nat → Option Str),
      runLoopGo sOp eOp chunks (loadPart files) minChars B rem i tail = .ok steps →
      (∀ m, i ≤ m → m < i + rem →
        ∃ t, jsTruthy (loadPart (fileAfterRun files steps) m) = some t) ∧
      (∀ m, m < i ∨ i + rem ≤ m → fileAfterRun files steps m = files m) := by
  intro rem
  induction rem with
  | zero =>
    intro i tail steps files h
    rw [runLoopGo] at h
    injection h with h2
    subst h2
    exact ⟨fun m h1 h2 => by omega, fun m _ => rfl⟩
  | succ rem ih =>
    intro i tail steps files h
    obtain ⟨s, rest, hcons, hidx, hbr⟩ := runLoopGo_succ_inv sOp eOp chunks (loadPart files)
      minChars B rem i tail steps h
    subst hcons
    rcases hbr with ⟨t, htr, hsv, hr⟩ | ⟨htr, s0, expOpt, hsop, hexp, hsv, hr⟩
    · subst hsv
      have hrange := runLoopGo_index_range sOp eOp chunks (loadPart files) minChars B
        rem (i + 1) _ rest hr
      have hfa : ∀ m, fileAfterRun files
          (⟨i, true, none, none, none, none, t⟩ :: rest) m = fileAfterRun files rest m := by
        intro m
        rw [fileAfterRun_cons]
        apply fileAfterRun_eq_init
        by_cases hm : i = m
        · rw [if_pos hm]
        · rw [if_neg hm]
      obtain ⟨ihin, ihout⟩ := ih (i + 1) _ rest files hr
      constructor
      · intro m h1 h2
        by_cases hm : m = i
        · subst hm
          simp only [loadPart] at htr ⊢
          rw [hfa m, fileAfterRun_not_mem files rest m
            (fun z hz => by have := hrange z hz; omega)]
          exact ⟨t, htr⟩
        · simp only [loadPart] at ihin ⊢
          rw [hfa m]
          exact ihin m (by omega) (by omega)
      · intro m hm
        rw [hfa m]
        exact ihout m (by omega)
    · subst hsv
      have hrange := runLoopGo_index_range sOp eOp chunks (loadPart files) minChars B
        rem (i + 1) _ rest hr
      have hfinal : trim (expOpt.getD s0) ≠ [] := by
        by_cases hlen : s0.length < minChars
        · rw [if_pos hlen] at hexp
          cases he : eOp s0 with
          | error e => rw [he] at hexp; simp [Except.map] at hexp
          | ok u =>
            rw [he] at hexp
            simp only [Except.map] at hexp
            injection hexp with h2
            subst h2
            simpa using hE s0 u he
        · rw [if_neg hlen] at hexp
          injection hexp with h2
          subst h2
          simpa using hS _ i _ s0 hsop
      have hfa : ∀ m, m ≠ i → fileAfterRun files
          (⟨i, false, some (if B > 0 then tail else []), some s0, expOpt,
            some (trimEnd (expOpt.getD s0)), expOpt.getD s0⟩ :: rest) m
            = fileAfterRun files rest m := by
        intro m hm
        rw [fileAfterRun_cons]
        apply fileAfterRun_eq_init
        rw [if_neg (fun hh => hm hh.symm)]
      have hfai : fileAfterRun files
          (⟨i, false, some (if B > 0 then tail else []), some s0, expOpt,
            some (trimEnd (expOpt.getD s0)), expOpt.getD s0⟩ :: rest) i
            = some (trimEnd (expOpt.getD s0)) := by
        rw [fileAfterRun_cons, fileAfterRun_not_mem _ rest i
          (fun z hz => by have := hrange z hz; omega)]
        rw [if_pos rfl]
      obtain ⟨ihin, ihout⟩ := ih (i + 1) _ rest files hr
      constructor
      · intro m h1 h2
        by_cases hm : m = i
        · subst hm
          have hne : trimEnd (trimEnd (expOpt.getD s0)) ≠ [] := by
            rw [trimEnd_idem]
            intro h0
            exact hfinal (by rw [trim, trimStart, h0]; rfl)
          refine ⟨trimEnd (trimEnd (expOpt.getD s0)), ?_⟩
          simp [loadPart, hfai, jsTruthy, hne]
        · simp only [loadPart] at ihin ⊢
          rw [hfa m hm]
          exact ihin m (by omega) (by omega)
      · intro m hm
        have hmi : m ≠ i := by omega
        rw [hfa m hmi]
        exact ihout m (by omega)

/-- Inversion of a successful mainRun. -/
theorem mainRun_ok_inv (chunks : List Str) (files : Nat → Option Str)
    (sOp : Str → Nat → Str → Except JsErr Str) (eOp : Str → Except JsErr Str)
    (minChars B : Nat) (r : RunResult)
    (h : mainRun chunks files sOp eOp minChars B = .ok r) :
    runLoop sOp eOp chunks (loadPart files) minChars B = .ok r.steps ∧
    r.finalParts = (List.range chunks.length).map (loadPart (fileAfterRun files r.steps)) ∧
    r.missing = missingIdx 0 r.finalParts ∧
    r.combined = combineParts r.finalParts := by
  rw [mainRun] at h
  cases hl : runLoop sOp eOp chunks (loadPart files) minChars B with
  | error e => rw [hl] at h; simp at h
  | ok steps =>
    rw [hl] at h
    dsimp only at h
    injection h with h2
    subst h2
    exact ⟨rfl, rfl, rfl, rfl⟩

/-- C5: chunks are processed in ascending index order; with bridging
enabled, the bridge passed to the summarize call of chunk 0 is empty and
the bridge of chunk i for positive i is exactly the last B characters of
the final text of chunk i-1 (the loaded checkpoint when chunk i-1 was
resumed, its fresh, possibly expanded, summary otherwise), never text of
any later chunk. -/
theorem bridge_policy (chunks : List Str) (files : Nat → Option Str)
    (sOp : Str → Nat → Str → Except JsErr Str) (eOp : Str → Except JsErr Str)
    (minChars B : Nat) (hB : 0 < B) (r : RunResult)
    (hrun : mainRun chunks files sOp eOp minChars B = .ok r) :
    r.steps.length = chunks.length ∧
    (∀ j (h : j < r.steps.length), (r.steps.get ⟨j, h⟩).index = j) ∧
    (∀ h0 : 0 < r.steps.length, (r.steps.get ⟨0, h0⟩).resumed = false →
        (r.steps.get ⟨0, h0⟩).bridge = some []) ∧
    (∀ j (h : j + 1 < r.steps.length), (r.steps.get ⟨j + 1, h⟩).resumed = false →
        (r.steps.get ⟨j + 1, h⟩).bridge
          = some (takeLastB B ((r.steps.get ⟨j, by omega⟩).finalText))) ∧
    (∀ s ∈ r.steps, s.resumed = true →
        ∃ t, jsTruthy (loadPart files s.index) = some t ∧ s.finalText = t) ∧
    (∀ s ∈ r.steps, s.resumed = false →
        ∃ s0, s.firstPass = some s0 ∧
          ((s0.length < minChars ∧ ∃ u, eOp s0 = .ok u ∧ s.finalText = u) ∨
           (¬ s0.length < minChars ∧ s.finalText = s0))) := by
  obtain ⟨hloop, _, _, _⟩ := mainRun_ok_inv chunks files sOp eOp minChars B r hrun
  rw [runLoop] at hloop
  obtain ⟨hlen, hidx⟩ := runLoopGo_ok_shape sOp eOp chunks (loadPart files) minChars B
    chunks.length 0 [] r.steps hloop
  obtain ⟨hb0, hbs⟩ := runLoopGo_bridge sOp eOp chunks (loadPart files) minChars B hB
    chunks.length 0 [] r.steps hloop
  have hsteps := runLoopGo_ok_steps sOp eOp chunks (loadPart files) minChars B
    chunks.length 0 [] r.steps hloop
  refine ⟨hlen, fun j h => by simpa using hidx j h, hb0, hbs, ?_, ?_⟩
  · intro s hs hres
    rcases hsteps s hs with ⟨_, ⟨t, ht, hft⟩, _⟩ | ⟨hres2, _⟩
    · exact ⟨t, ht, hft⟩
    · rw [hres] at hres2
      simp at hres2
  · intro s hs hres
    rcases hsteps s hs with ⟨hres2, _⟩ | ⟨_, _, b, s0, hbr, hsop, hfp, hcase, hw⟩
    · rw [hres] at hres2
      simp at hres2
    · refine ⟨s0, hfp, ?_⟩
      rcases hcase with ⟨h1, u, he, _, hft⟩ | ⟨h1, _, hft⟩
      · exact Or.inl ⟨h1, u, he, hft⟩
      · exact Or.inr ⟨h1, hft⟩

/-- Witness for C5: a two-chunk fresh run with B equal 2; chunk 1 receives
the last two characters of the summary of chunk 0. -/
theorem bridge_policy_witness :
    ((mainRun [("c1").toList, ("c2").toList] (fun _ => none)
        (fun _ _ b => Except.ok (("sum").toList ++ b)) (fun _ => Except.ok [])
        0 2).toOption.getD ⟨[], [], [], []⟩).steps.length = 2 ∧
    (((mainRun [("c1").toList, ("c2").toList] (fun _ => none)
        (fun _ _ b => Except.ok (("sum").toList ++ b)) (fun _ => Except.ok [])
        0 2).toOption.getD ⟨[], [], [], []⟩).steps.get ⟨0, by decide⟩).bridge = some [] ∧
    (((mainRun [("c1").toList, ("c2").toList] (fun _ => none)
        (fun _ _ b => Except.ok (("sum").toList ++ b)) (fun _ => Except.ok [])
        0 2).toOption.getD ⟨[], [], [], []⟩).steps.get ⟨1, by decide⟩).bridge
      = some (("um").toList) := by
  have h := bridge_policy [("c1").toList, ("c2").toList] (fun _ => none)
      (fun _ _ b => Except.ok (("sum").toList ++ b)) (fun _ => Except.ok []) 0 2
      (by omega)
      ((mainRun [("c1").toList, ("c2").toList] (fun _ => none)
        (fun _ _ b => Except.ok (("sum").toList ++ b)) (fun _ => Except.ok [])
        0 2).toOption.getD ⟨[], [], [], []⟩) (by rfl)
  refine ⟨h.1, h.2.2.1 (by decide) (by decide), ?_⟩
  have h2 := h.2.2.2.1 0 (by decide) (by decide)
  exact h2.trans (by decide)

/-- C7: a fresh chunk whose first-pass summary is under the minimum gets
exactly one expansion call whose output is the persisted text, even if
still short; at or above the minimum no expansion happens and the
first-pass text is persisted.  The hypotheses record that both remote
operations return trimmed text, as summarizeChunk and
expandSummaryNoNewFacts do. -/
theorem expansion_policy (chunks : List Str) (files : Nat → Option Str)
    (sOp : Str → Nat → Str → Except JsErr Str) (eOp : Str → Except JsErr Str)
    (minChars B : Nat) (r : RunResult)
    (hS : ∀ c i b s, sOp c i b = .ok s → trimEnd s = s)
    (hE : ∀ s t, eOp s = .ok t → trimEnd t = t)
    (hrun : mainRun chunks files sOp eOp minChars B = .ok r) :
    ∀ s ∈ r.steps, s.resumed = false →
      ∃ s0, s.firstPass = some s0 ∧
        ((s0.length < minChars ∧ ∃ t, eOp s0 = .ok t ∧ s.expanded = some t ∧
            s.written = some t ∧ s.finalText = t) ∨
         (¬ s0.length < minChars ∧ s.expanded = none ∧ s.written = some s0 ∧
            s.finalText = s0)) := by
  obtain ⟨hloop, _, _, _⟩ := mainRun_ok_inv chunks files sOp eOp minChars B r hrun
  rw [runLoop] at hloop
  have hsteps := runLoopGo_ok_steps sOp eOp chunks (loadPart files) minChars B
    chunks.length 0 [] r.steps hloop
  intro s hs hres
  rcases hsteps s hs with ⟨hres2, _⟩ | ⟨_, _, b, s0, hbr, hsop, hfp, hcase, hw⟩
  · rw [hres] at hres2
    simp at hres2
  · refine ⟨s0, hfp, ?_⟩
    rcases hcase with ⟨h1, t, he, hexp, hft⟩ | ⟨h1, hexp, hft⟩
    · refine Or.inl ⟨h1, t, he, hexp, ?_, hft⟩
      rw [hw, hft, hE s0 t he]
    · refine Or.inr ⟨h1, hexp, ?_, hft⟩
      rw [hw, hft, hS _ s.index _ s0 hsop]

/-- Witness for C7: a first-pass summary of 3 characters under the minimum
of 5 triggers one expansion whose output is persisted. -/
theorem expansion_policy_witness :
    ∃ s0, (((mainRun [("c").toList] (fun _ => none)
          (fun _ _ _ => Except.ok (("abc").toList))
          (fun _ => Except.ok (("defgh").toList)) 5 1200).toOption.getD
          ⟨[], [], [], []⟩).steps.get ⟨0, by decide⟩).firstPass = some s0 ∧
      ((s0.length < 5 ∧ ∃ t, (Except.ok (("defgh").toList) : Except JsErr Str) = Except.ok t ∧
          (((mainRun [("c").toList] (fun _ => none)
            (fun _ _ _ => Except.ok (("abc").toList))
            (fun _ => Except.ok (("defgh").toList)) 5 1200).toOption.getD
            ⟨[], [], [], []⟩).steps.get ⟨0, by decide⟩).expanded = some t ∧
          (((mainRun [("c").toList] (fun _ => none)
            (fun _ _ _ => Except.ok (("abc").toList))
            (fun _ => Except.ok (("defgh").toList)) 5 1200).toOption.getD
            ⟨[], [], [], []⟩).steps.get ⟨0, by decide⟩).written = some t ∧
          (((mainRun [("c").toList] (fun _ => none)
            (fun _ _ _ => Except.ok (("abc").toList))
            (fun _ => Except.ok (("defgh").toList)) 5 1200).toOption.getD
            ⟨[], [], [], []⟩).steps.get ⟨0, by decide⟩).finalText = t) ∨
       (¬ s0.length < 5 ∧
          (((mainRun [("c").toList] (fun _ => none)
            (fun _ _ _ => Except.ok (("abc").toList))
            (fun _ => Except.ok (("defgh").toList)) 5 1200).toOption.getD
            ⟨[], [], [], []⟩).steps.get ⟨0, by decide⟩).expanded = none ∧
          (((mainRun [("c").toList] (fun _ => none)
            (fun _ _ _ => Except.ok (("abc").toList))
            (fun _ => Except.ok (("defgh").toList)) 5 1200).toOption.getD
            ⟨[], [], [], []⟩).steps.get ⟨0, by decide⟩).written = some s0 ∧
          (((mainRun [("c").toList] (fun _ => none)
            (fun _ _ _ => Except.ok (("abc").toList))
            (fun _ => Except.ok (("defgh").toList)) 5 1200).toOption.getD
            ⟨[], [], [], []⟩).steps.get ⟨0, by decide⟩).finalText = s0)) :=
  expansion_policy [("c").toList] (fun _ => none)
    (fun _ _ _ => Except.ok (("abc").toList)) (fun _ => Except.ok (("defgh").toList))
    5 1200
    ((mainRun [("c").toList] (fun _ => none) (fun _ _ _ => Except.ok (("abc").toList))
      (fun _ => Except.ok (("defgh").toList)) 5 1200).toOption.getD ⟨[], [], [], []⟩)
    (fun c i b s h => by injection h with h2; subst h2; decide)
    (fun s t h => by injection h with h2; subst h2; decide)
    (by rfl) _ (by decide) (by decide)

/-- C6: when the retry-wrapped remote call succeeds but the trimmed output
text is empty, both summarize and expand fail with their empty-output
error while keeping exactly the delays and attempt count of the wrapper:
the empty-output check runs outside the retry loop, so it adds no retry
and no backoff.  The final conjunct shows the error aborting a whole run:
a one-chunk pipeline whose remote response is whitespace fails fatally
with the empty-output error. -/
theorem emptyOutput_policy (f : Nat → Except JsErr Resp) (jitter : Nat → Nat) (resp : Resp)
    (hok : (withRetries f jitter).result = .ok resp)
    (hempty : trim (resp.getD []) = []) :
    (summarizeChunkModel f jitter).result = .error emptyOutputErr ∧
    (summarizeChunkModel f jitter).delays = (withRetries f jitter).delays ∧
    (summarizeChunkModel f jitter).attemptsMade = (withRetries f jitter).attemptsMade ∧
    (expandSummaryModel f jitter).result = .error emptyOutputExpandErr ∧
    (expandSummaryModel f jitter).delays = (withRetries f jitter).delays ∧
    (expandSummaryModel f jitter).attemptsMade = (withRetries f jitter).attemptsMade ∧
    mainRun [("c").toList] (fun _ => none)
        (fun _ _ _ => (summarizeChunkModel (fun _ => Except.ok (some ((" ").toList)))
          (fun _ => 0)).result)
        (fun _ => Except.ok []) MIN_CHUNK_SUMMARY_CHARS BRIDGE_CHARS
      = .error emptyOutputErr := by
  have hs : summarizeChunkModel f jitter
      = ⟨.error emptyOutputErr, (withRetries f jitter).delays,
         (withRetries f jitter).attemptsMade⟩ := by
    simp [summarizeChunkModel, hok, hempty]
  have he : expandSummaryModel f jitter
      = ⟨.error emptyOutputExpandErr, (withRetries f jitter).delays,
         (withRetries f jitter).attemptsMade⟩ := by
    simp [expandSummaryModel, hok, hempty]
  refine ⟨by rw [hs], by rw [hs], by rw [hs], by rw [he], by rw [he], by rw [he], by rfl⟩

/-- Witness for C6: the remote call succeeds on the first attempt with a
whitespace-only output; summarize fails with the empty-output error after
a single attempt and no backoff delay. -/
theorem emptyOutput_policy_witness :
    (summarizeChunkModel (fun _ => Except.ok (some ((" ").toList))) (fun _ => 0)).result
      = .error emptyOutputErr ∧
    (summarizeChunkModel (fun _ => Except.ok (some ((" ").toList))) (fun _ => 0)).delays
      = [] ∧
    (summarizeChunkModel (fun _ => Except.ok (some ((" ").toList)))
      (fun _ => 0)).attemptsMade = 1 := by
  have h := emptyOutput_policy (fun _ => Except.ok (some ((" ").toList))) (fun _ => 0)
    (some ((" ").toList)) (by rfl) (by decide)
  exact ⟨h.1, h.2.1.trans (by decide), h.2.2.1.trans (by decide)⟩

/-- C1, amended: a chunk index whose part file holds content that is
non-empty after trimming (truthy after the right-trimming load) is
resumed with no remote call and no write; and a second run over the files
left by a successful first run performs zero remote calls, writes nothing,
and leaves every part file byte-identical.  The hypotheses record that
the remote operations return text that survives trimming, as the
non-empty check inside summarizeChunk and expandSummaryNoNewFacts
guarantees. -/
theorem checkpoint_skip_idempotent (chunks : List Str) (files : Nat → Option Str)
    (sOp : Str → Nat → Str → Except JsErr Str) (eOp : Str → Except JsErr Str)
    (minChars B : Nat)
    (hS : ∀ c i b s, sOp c i b = .ok s → trim s ≠ [])
    (hE : ∀ s t, eOp s = .ok t → trim t ≠ []) :
    (∀ r, mainRun chunks files sOp eOp minChars B = .ok r →
       ∀ s ∈ r.steps, (jsTruthy (loadPart files s.index)).isSome →
         s.resumed = true ∧ s.bridge = none ∧ s.firstPass = none ∧ s.expanded = none ∧
           s.written = none) ∧
    (∀ r₁, mainRun chunks files sOp eOp minChars B = .ok r₁ →
       ∃ r₂, mainRun chunks (fileAfterRun files r₁.steps) sOp eOp minChars B = .ok r₂ ∧
         remoteCallCount r₂.steps = 0 ∧ (∀ s ∈ r₂.steps, s.written = none) ∧
         ∀ m, fileAfterRun (fileAfterRun files r₁.steps) r₂.steps m
           = fileAfterRun files r₁.steps m) := by
  constructor
  · intro r hrun s hs htr
    obtain ⟨hloop, _, _, _⟩ := mainRun_ok_inv chunks files sOp eOp minChars B r hrun
    rw [runLoop] at hloop
    rcases runLoopGo_ok_steps sOp eOp chunks (loadPart files) minChars B
        chunks.length 0 [] r.steps hloop s hs with
      ⟨h1, _, h3, h4, h5, h6⟩ | ⟨_, h2, _⟩
    · exact ⟨h1, h3, h4, h5, h6⟩
    · rw [h2] at htr
      simp at htr
  · intro r₁ hrun
    obtain ⟨hloop, _, _, _⟩ := mainRun_ok_inv chunks files sOp eOp minChars B r₁ hrun
    rw [runLoop] at hloop
    obtain ⟨hin, _⟩ := runLoopGo_idempotent sOp eOp chunks minChars B hS hE
      chunks.length 0 [] r₁.steps files hloop
    obtain ⟨steps2, hr2, hprop⟩ := runLoopGo_all_truthy sOp eOp chunks
      (loadPart (fileAfterRun files r₁.steps)) minChars B chunks.length 0 []
      (fun m h1 h2 => by
        obtain ⟨t, ht⟩ := hin m (by omega) (by omega)
        rw [ht]
        rfl)
    have hmain2 : mainRun chunks (fileAfterRun files r₁.steps) sOp eOp minChars B
        = .ok ⟨steps2,
            (List.range chunks.length).map
              (loadPart (fileAfterRun (fileAfterRun files r₁.steps) steps2)),
            missingIdx 0 ((List.range chunks.length).map
              (loadPart (fileAfterRun (fileAfterRun files r₁.steps) steps2))),
            combineParts ((List.range chunks.length).map
              (loadPart (fileAfterRun (fileAfterRun files r₁.steps) steps2)))⟩ := by
      have hl : runLoop sOp eOp chunks (loadPart (fileAfterRun files r₁.steps)) minChars B
          = .ok steps2 := by
        rw [runLoop]
        exact hr2
      rw [mainRun, hl]
    refine ⟨_, hmain2,
      remoteCallCount_zero steps2 (fun s hs => ⟨(hprop s hs).2.1, (hprop s hs).2.2.1⟩),
      fun s hs => (hprop s hs).2.2.2,
      fun m => fileAfterRun_no_writes _ steps2 m (fun s hs => (hprop s hs).2.2.2)⟩

/-- Counterexample to C1 as stated: a part file that exists with
whitespace-only content loads as an empty string, which is falsy, so the
orchestrator summarizes the chunk again and rewrites the part file even
though the file already existed. -/
theorem checkpoint_skip_counterexample :
    mainRun [("c").toList] (fun _ => some ((" ").toList))
        (fun _ _ _ => Except.ok (("s").toList)) (fun _ => Except.ok (("e").toList)) 0 1200
      = .ok ⟨[⟨0, false, some [], some (("s").toList), none, some (("s").toList),
              ("s").toList⟩],
             [some (("s").toList)], [], combineParts [some (("s").toList)]⟩ := by
  rfl

/-- Witness for the amended C1: a run with an existing checkpoint at index
0 resumes it without calling or writing, and the second run over the first
run output makes zero remote calls. -/
theorem checkpoint_skip_idempotent_witness :
    (((mainRun [("c1").toList, ("c2").toList]
        (fun i => if i = 0 then some (("done").toList) else none)
        (fun _ _ _ => Except.ok (("fresh").toList)) (fun _ => Except.ok (("exp").toList))
        0 1200).toOption.getD ⟨[], [], [], []⟩).steps.get ⟨0, by decide⟩).resumed = true ∧
    (((mainRun [("c1").toList, ("c2").toList]
        (fun i => if i = 0 then some (("done").toList) else none)
        (fun _ _ _ => Except.ok (("fresh").toList)) (fun _ => Except.ok (("exp").toList))
        0 1200).toOption.getD ⟨[], [], [], []⟩).steps.get ⟨0, by decide⟩).written = none ∧
    remoteCallCount ((mainRun [("c1").toList, ("c2").toList]
        (fileAfterRun (fun i => if i = 0 then some (("done").toList) else none)
          ((mainRun [("c1").toList, ("c2").toList]
            (fun i => if i = 0 then some (("done").toList) else none)
            (fun _ _ _ => Except.ok (("fresh").toList))
            (fun _ => Except.ok (("exp").toList)) 0 1200).toOption.getD
            ⟨[], [], [], []⟩).steps)
        (fun _ _ _ => Except.ok (("fresh").toList)) (fun _ => Except.ok (("exp").toList))
        0 1200).toOption.getD ⟨[], [], [], []⟩).steps = 0 := by
  have h := checkpoint_skip_idempotent [("c1").toList, ("c2").toList]
      (fun i => if i = 0 then some (("done").toList) else none)
      (fun _ _ _ => Except.ok (("fresh").toList)) (fun _ => Except.ok (("exp").toList))
      0 1200
      (fun c i b s hh => by injection hh with h2; subst h2; decide)
      (fun s t hh => by injection hh with h2; subst h2; decide)
  have h1 := h.1 ((mainRun [("c1").toList, ("c2").toList]
      (fun i => if i = 0 then some (("done").toList) else none)
      (fun _ _ _ => Except.ok (("fresh").toList)) (fun _ => Except.ok (("exp").toList))
      0 1200).toOption.getD ⟨[], [], [], []⟩) (by rfl)
      (((mainRun [("c1").toList, ("c2").toList]
        (fun i => if i = 0 then some (("done").toList) else none)
        (fun _ _ _ => Except.ok (("fresh").toList)) (fun _ => Except.ok (("exp").toList))
        0 1200).toOption.getD ⟨[], [], [], []⟩).steps.get ⟨0, by decide⟩)
      (by decide) (by decide)
  obtain ⟨r2, hr2, hcount, _, _⟩ := h.2 ((mainRun [("c1").toList, ("c2").toList]
      (fun i => if i = 0 then some (("done").toList) else none)
      (fun _ _ _ => Except.ok (("fresh").toList)) (fun _ => Except.ok (("exp").toList))
      0 1200).toOption.getD ⟨[], [], [], []⟩) (by rfl)
  refine ⟨h1.1, h1.2.2.2.2, ?_⟩
  rw [hr2]
  simpa using hcount

/-!
Combine stage.
-/

theorem dropWhile_eq_self_of_all (p : Char → Bool) (l : Str)
    (h : ∀ c ∈ l, p c = false) : List.dropWhile p l = l := by
  cases l with
  | nil => rfl
  | cons c t => simp [List.dropWhile_cons, h c (by simp)]

theorem trimEnd_all_nonws {l : Str} (h : ∀ c ∈ l, isWS c = false) : trimEnd l = l := by
  rw [trimEnd, dropWhile_eq_self_of_all isWS l.reverse (fun c hc => h c (by simpa using hc))]
  simp

theorem natStrGo_digits : ∀ (fuel n : Nat), ∀ c ∈ natStrGo fuel n, ∃ d, d < 10 ∧ c = digitChar d := by
  intro fuel
  induction fuel with
  | zero => intro n c hc; simp [natStrGo] at hc
  | succ fuel ih =>
    intro n c hc
    rw [natStrGo] at hc
    by_cases h : n < 10
    · rw [if_pos h] at hc
      simp at hc
      exact ⟨n, h, hc⟩
    · rw [if_neg h] at hc
      rcases List.mem_append.mp hc with hc | hc
      · exact ih (n / 10) c hc
      · simp at hc
        exact ⟨n % 10, Nat.mod_lt n (by omega), hc⟩

theorem digitChar_not_ws : ∀ d, d < 10 → isWS (digitChar d) = false := by decide

theorem natStr_not_ws : ∀ c ∈ natStr n, isWS c = false := by
  intro c hc
  obtain ⟨d, hd, rfl⟩ := natStrGo_digits (n + 1) n c hc
  exact digitChar_not_ws d hd

theorem natStr_ne_nil (n : Nat) : natStr n ≠ [] := by
  rw [natStr, natStrGo]
  by_cases h : n < 10
  · rw [if_pos h]; simp
  · rw [if_neg h]; simp

theorem partHeader_fixed (n : Nat) : trimEnd (partHeader n) = partHeader n := by
  rw [partHeader]
  exact trimEnd_append_fixed _ (trimEnd_all_nonws (fun c hc => natStr_not_ws c hc))
    (natStr_ne_nil n)

/-- One combined section agrees with its specification rendering when the
content is a trimEnd fixed point. -/
theorem combineSection_eq_spec (idx : Nat) (c : Option Str)
    (hfix : ∀ t, c = some t → trimEnd t = t) :
    trimEnd (partHeader (idx + 1) ++ sep ++ c.getD []) = specSection idx c := by
  rw [specSection]
  by_cases hc : c.getD [] = []
  · rw [hc, if_pos rfl]
    simp only [List.append_nil]
    have hsep : ∀ ch ∈ sep, isWS ch := by decide
    rw [trimEnd_append_ws (partHeader (idx + 1)) hsep, partHeader_fixed]
  · rw [if_neg hc, ← List.append_assoc]
    have hfx : trimEnd (c.getD []) = c.getD [] := by
      cases c with
      | none => rfl
      | some t => exact hfix t rfl
    rw [trimEnd_append_fixed (partHeader (idx + 1) ++ sep) hfx hc]

theorem combineGo_eq_spec : ∀ (parts : List (Option Str)) (idx : Nat),
    (∀ t, some t ∈ parts → trimEnd t = t) →
    combineGo idx parts = specCombineGo idx parts := by
  intro parts
  induction parts with
  | nil => intro idx _; rfl
  | cons c rest ih =>
    intro idx h
    rw [combineGo, specCombineGo,
      combineSection_eq_spec idx c (fun t ht => h t (by simp [ht])),
      ih (idx + 1) (fun t ht => h t (by simp [ht]))]

/-- Every member of the missing list points past the starting index and
into the slots. -/
theorem missingIdx_bounds : ∀ (parts : List (Option Str)) (idx m : Nat),
    m ∈ missingIdx idx parts → idx + 1 ≤ m ∧ m ≤ idx + parts.length := by
  intro parts
  induction parts with
  | nil => intro idx m hm; simp [missingIdx] at hm
  | cons c rest ih =>
    intro idx m hm
    rw [missingIdx] at hm
    by_cases h : (jsTruthy c).isSome
    · rw [if_pos h] at hm
      have := ih (idx + 1) m hm
      simp only [List.length_cons]
      omega
    · rw [if_neg h] at hm
      rcases List.mem_cons.mp hm with rfl | hm
      · simp only [List.length_cons]
        omega
      · have := ih (idx + 1) m hm
        simp only [List.length_cons]
        omega

/-- The missing list names exactly the 1-based indices of the slots that
are not truthy. -/
theorem missingIdx_mem : ∀ (parts : List (Option Str)) (idx k : Nat), k < parts.length →
    ((idx + k + 1) ∈ missingIdx idx parts ↔ jsTruthy (parts.getD k none) = none) := by
  intro parts
  induction parts with
  | nil => intro idx k hk; simp at hk
  | cons c rest ih =>
    intro idx k hk
    rw [missingIdx]
    cases k with
    | zero =>
      simp only [List.getD_cons_zero]
      by_cases h : (jsTruthy c).isSome
      · rw [if_pos h]
        constructor
        · intro hm
          have := missingIdx_bounds rest (idx + 1) _ hm
          omega
        · intro hnone
          rw [hnone] at h
          simp at h
      · rw [if_neg h]
        simp only [Option.not_isSome_iff_eq_none] at h
        simp [h]
    | succ k =>
      simp only [List.getD_cons_succ]
      have hk' : k < rest.length := by simpa using hk
      by_cases h : (jsTruthy c).isSome
      · rw [if_pos h]
        have := ih (idx + 1) k hk'
        constructor
        · intro hm
          exact (this.mp (by
            have harith : idx + 1 + k + 1 = idx + (k + 1) + 1 := by omega
            rw [harith]
            exact hm))
        · intro hnone
          have := this.mpr hnone
          have harith : idx + 1 + k + 1 = idx + (k + 1) + 1 := by omega
          rw [harith] at this
          exact this
      · rw [if_neg h]
        have := ih (idx + 1) k hk'
        constructor
        · intro hm
          rcases List.mem_cons.mp hm with heq | hm
          · omega
          · exact this.mp (by
              have harith : idx + 1 + k + 1 = idx + (k + 1) + 1 := by omega
              rw [harith]
              exact hm)
        · intro hnone
          have h2 := this.mpr hnone
          have harith : idx + 1 + k + 1 = idx + (k + 1) + 1 := by omega
          rw [harith] at h2
          exact List.mem_cons_of_mem _ h2

/-- C9: combine renders each slot as the labelled section followed by its
content after a blank line (just the label when absent or empty), joined
by the blank-line separator; an absent slot is no error: the run computes
the warning list of exactly the 1-based non-truthy indices and still
always produces the combined document. -/
theorem combine_policy (parts : List (Option Str))
    (hfix : ∀ t, some t ∈ parts → trimEnd t = t) :
    combineParts parts = specCombine parts ∧
    (∀ k, k < parts.length →
      ((k + 1) ∈ missingIdx 0 parts ↔ jsTruthy (parts.getD k none) = none)) ∧
    (∀ (chunks : List Str) (files : Nat → Option Str)
      (sOp : Str → Nat → Str → Except JsErr Str) (eOp : Str → Except JsErr Str)
      (minChars B : Nat) (r : RunResult),
      mainRun chunks files sOp eOp minChars B = .ok r →
      r.combined = specCombine r.finalParts ∧ r.missing = missingIdx 0 r.finalParts) := by
  refine ⟨?_, ?_, ?_⟩
  · rw [combineParts, specCombine, combineGo_eq_spec parts 0 hfix]
  · intro k hk
    simpa using missingIdx_mem parts 0 k hk
  · intro chunks files sOp eOp minChars B r hrun
    obtain ⟨_, hfp, hmiss, hcomb⟩ := mainRun_ok_inv chunks files sOp eOp minChars B r hrun
    have hfix2 : ∀ t, some t ∈ r.finalParts → trimEnd t = t := by
      intro t ht
      rw [hfp] at ht
      obtain ⟨i, _, hload⟩ := List.mem_map.mp ht
      rw [loadPart] at hload
      obtain ⟨x, _, hx⟩ := Option.map_eq_some'.mp hload
      rw [← hx, trimEnd_idem]
    rw [hcomb, hmiss]
    refine ⟨?_, rfl⟩
    rw [combineParts, specCombine, combineGo_eq_spec r.finalParts 0 hfix2]

/-- Witness for C9 at a present and an absent slot. -/
theorem combine_policy_witness :
    combineParts [some (("hello").toList), none] = specCombine [some (("hello").toList), none] ∧
    missingIdx 0 [some (("hello").toList), none] = [2] :=
  ⟨(combine_policy [some (("hello").toList), none]
      (by intro t ht; simp at ht; subst ht; decide)).1,
   by decide⟩

/-!
Block Splitter reconstruction.
-/

theorem normalizeCRLF_eq_self : ∀ t : Str, ('\r') ∉ t → normalizeCRLF t = t
  | [], _ => rfl
  | [c], _ => rfl
  | c :: d :: rest, h => by
    have hc : c ≠ '\r' := fun hh => h (by simp [hh])
    rw [normalizeCRLF, if_neg (fun hh => hc hh.1),
      normalizeCRLF_eq_self (d :: rest) (fun hm => h (List.mem_cons_of_mem c hm))]

/-- A recognized speaker line is not whitespace-only. -/
theorem speaker_trim_ne_nil {l : Str} (h : looksLikeSpeakerLine l = true) : trim l ≠ [] := by
  intro hnil
  rw [looksLikeSpeakerLine] at h
  simp only [hnil] at h
  simp at h

theorem speaker_ne_nil {l : Str} (h : looksLikeSpeakerLine l = true) : l ≠ [] := by
  intro hnil
  exact speaker_trim_ne_nil h (by rw [hnil]; rfl)

/-- Accumulated blocks pass through the splitter scan unchanged. -/
theorem splitGo_blocks_append : ∀ (ls blocks current : List Str),
    splitGo ls blocks current = blocks ++ splitGo ls [] current := by
  intro ls
  induction ls with
  | nil =>
    intro blocks current
    rw [splitGo, splitGo, splitFlush, splitFlush]
    by_cases h : current.length > 0
    · rw [if_pos h, if_pos h]
      simp
    · rw [if_neg h, if_neg h]
      simp
  | cons l rest ih =>
    intro blocks current
    rw [splitGo]
    by_cases hsp : looksLikeSpeakerLine l
    · rw [if_pos hsp]
      conv_rhs => rw [splitGo, if_pos hsp]
      rw [ih (splitFlush blocks current) [trimEnd l],
        ih (splitFlush [] current) [trimEnd l]]
      rw [splitFlush, splitFlush]
      by_cases h : current.length > 0
      · rw [if_pos h, if_pos h]
        simp
      · rw [if_neg h, if_neg h]
        simp
    · rw [if_neg hsp]
      conv_rhs => rw [splitGo, if_neg hsp]
      by_cases h : current.length > 0
      · rw [if_pos h, if_pos h, ih blocks (current ++ [trimEnd l]),
          ih [] (current ++ [trimEnd l])]
      · rw [if_neg h, if_neg h, ih blocks current, ih [] current]

/-- Lines before the first speaker line are dropped by the scan. -/
theorem splitGo_skip : ∀ ls : List Str,
    splitGo ls [] [] = splitGo (dropBeforeSpeaker ls) [] [] := by
  intro ls
  induction ls with
  | nil => rfl
  | cons l rest ih =>
    rw [dropBeforeSpeaker, List.dropWhile_cons]
    by_cases hsp : looksLikeSpeakerLine l
    · rw [hsp]
      simp
    · have : (!looksLikeSpeakerLine l) = true := by simp [hsp]
      rw [this]
      simp only [if_pos]
      rw [splitGo, if_neg hsp, if_neg (by simp)]
      exact ih

/-- The scan of a non-empty block in progress emits at least one block. -/
theorem splitGo_ne_nil : ∀ (ls current : List Str), current ≠ [] →
    splitGo ls [] current ≠ [] := by
  intro ls
  induction ls with
  | nil =>
    intro current hc
    rw [splitGo, splitFlush, if_pos (by simpa [List.length_pos] using hc)]
    simp
  | cons l rest ih =>
    intro current hc
    rw [splitGo]
    by_cases hsp : looksLikeSpeakerLine l
    · rw [if_pos hsp, splitGo_blocks_append]
      rw [splitFlush, if_pos (by simpa [List.length_pos] using hc)]
      simp
    · rw [if_neg hsp, if_pos (by simpa [List.length_pos] using hc)]
      exact ih (current ++ [trimEnd l]) (by simp)

/-- joinSep splits over an append of two non-empty lists. -/
theorem joinSep_append_both (s : Str) : ∀ (xs ys : List Str), xs ≠ [] → ys ≠ [] →
    joinSep s (xs ++ ys) = joinSep s xs ++ s ++ joinSep s ys := by
  intro xs
  induction xs with
  | nil => intro ys h; exact absurd rfl h
  | cons x u ih =>
    intro ys _ hys
    cases u with
    | nil =>
      cases ys with
      | nil => exact absurd rfl hys
      | cons y v => simp [joinSep]
    | cons z w =>
      have ih2 := ih ys (by simp) hys
      show x ++ s ++ joinSep s ((z :: w) ++ ys) = joinSep s (x :: z :: w) ++ s ++ joinSep s ys
      rw [ih2]
      show x ++ s ++ (joinSep s (z :: w) ++ s ++ joinSep s ys)
          = (x ++ s ++ joinSep s (z :: w)) ++ s ++ joinSep s ys
      simp [List.append_assoc]

/-- A line list ending in a right-trim-fixed, non-empty line joins to a
right-trim fixed point. -/
theorem joinSep_last_fixed (s : Str) (xs : List Str) (z : Str)
    (hfix : trimEnd z = z) (hne : z ≠ []) :
    trimEnd (joinSep s (xs ++ [z])) = joinSep s (xs ++ [z]) := by
  rw [joinSep_append_single]
  exact trimEnd_append_fixed _ hfix hne

theorem dropWhile_head_false {p : Str → Bool} : ∀ {l : List Str} {d : Str} {ds : List Str},
    List.dropWhile p l = d :: ds → p d = false := by
  intro l
  induction l with
  | nil => intro d ds h; simp at h
  | cons c t ih =>
    intro d ds h
    rw [List.dropWhile_cons] at h
    by_cases hc : p c
    · rw [if_pos hc] at h
      exact ih h
    · rw [if_neg hc] at h
      injection h with h1 _
      subst h1
      simpa using hc

/-- Core reconstruction: from a non-empty block in progress whose lines are
right-trim fixed, when no block ends in a blank line, the scan emits blocks
joining back to all the lines. -/
theorem splitGo_join : ∀ (ls current : List Str),
    current ≠ [] →
    (∀ l ∈ current, trimEnd l = l) →
    (∀ l ∈ ls, trimEnd l = l) →
    (current.getLast? = some [] →
      looksLikeSpeakerLine (ls.headD []) = false ∧ ls ≠ []) →
    okLinesB ls = true →
    joinSep nl (splitGo ls [] current) = joinSep nl (current ++ ls) := by
  intro ls
  induction ls with
  | nil =>
    intro current hc hcur _ hinv _
    rw [splitGo, splitFlush, if_pos (by simpa [List.length_pos] using hc)]
    obtain ⟨t, z, rfl⟩ := (List.eq_nil_or_concat current).resolve_left hc
    simp only [List.concat_eq_append] at hc hcur hinv ⊢
    have hz : z ≠ [] := by
      intro hz0
      subst hz0
      exact absurd rfl (hinv (by simp)).2
    rw [joinSep_last_fixed nl t z (hcur z (by simp)) hz]
    simp [joinSep]
  | cons l rest ih =>
    intro current hc hcur hls hinv hok
    have hlfix : trimEnd l = l := hls l (by simp)
    have hlsrest : ∀ x ∈ rest, trimEnd x = x := fun x hx => hls x (by simp [hx])
    have hokrest : okLinesB rest = true := by
      rw [okLinesB] at hok
      exact ((Bool.and_eq_true _ _).mp hok).2
    rw [splitGo]
    by_cases hsp : looksLikeSpeakerLine l
    · rw [if_pos hsp, splitGo_blocks_append]
      obtain ⟨t, z, rfl⟩ := (List.eq_nil_or_concat current).resolve_left hc
      simp only [List.concat_eq_append] at hc hcur hinv ⊢
      have hz : z ≠ [] := by
        intro hz0
        subst hz0
        have := (hinv (by simp)).1
        simp only [List.headD_cons] at this
        rw [hsp] at this
        cases this
      have hflush : splitFlush [] (t ++ [z]) = [joinSep nl (t ++ [z])] := by
        rw [splitFlush, if_pos (by simp)]
        rw [joinSep_last_fixed nl t z (hcur z (by simp)) hz]
        simp
      rw [hflush, hlfix]
      have hrec := ih [l] (by simp)
        (fun x hx => by simp at hx; subst hx; exact hlfix) hlsrest
        (by
          intro hgl
          simp at hgl
          exact absurd hgl (speaker_ne_nil hsp))
        hokrest
      have hne2 : splitGo rest [] [l] ≠ [] := splitGo_ne_nil rest [l] (by simp)
      rw [joinSep_append_both nl [joinSep nl (t ++ [z])] (splitGo rest [] [l])
        (by simp) hne2]
      rw [show joinSep nl [joinSep nl (t ++ [z])] = joinSep nl (t ++ [z]) from rfl]
      rw [hrec]
      rw [joinSep_append_both nl (t ++ [z]) (l :: rest) (by simp) (by simp)]
      rw [show ([l] ++ rest : List Str) = l :: rest from rfl]
    · rw [if_neg hsp, if_pos (by simpa [List.length_pos] using hc), hlfix]
      have hinv2 : (current ++ [l]).getLast? = some [] →
          looksLikeSpeakerLine (rest.headD []) = false ∧ rest ≠ [] := by
        intro hgl
        simp only [List.getLast?_concat] at hgl
        injection hgl with hl0
        rw [okLinesB] at hok
        have hok1 := ((Bool.and_eq_true _ _).mp hok).1
        rw [if_pos hl0] at hok1
        obtain ⟨hne, hnsp⟩ := (Bool.and_eq_true _ _).mp hok1
        refine ⟨by simpa using hnsp, ?_⟩
        intro h0
        rw [h0] at hne
        simp at hne
      have hrec := ih (current ++ [l]) (by simp)
        (fun x hx => by
          rcases List.mem_append.mp hx with hx | hx
          · exact hcur x hx
          · simp at hx
            subst hx
            exact hlfix)
        hlsrest hinv2 hokrest
      rw [hrec, List.append_assoc]
      rfl

/-- C8, amended: for a transcript with no carriage returns, no trailing
whitespace on any line, and no speaker turn ending in a blank line,
concatenating the blocks (restoring single-newline separators)
reconstructs exactly the transcript minus any leading text before the
first recognized speaker line.  Without those conditions the splitter
right-trims every line and drops blank lines at the end of each turn, so
only this normalized reconstruction holds (see the counterexample). -/
theorem splitIntoBlocks_reconstruct (t : Str)
    (hcr : ('\r') ∉ t)
    (hl : ∀ l ∈ splitOnNl t, trimEnd l = l)
    (hok : okLinesB (dropBeforeSpeaker (splitOnNl t)) = true) :
    joinSep nl (splitIntoBlocks t) = joinSep nl (dropBeforeSpeaker (splitOnNl t)) := by
  rw [splitIntoBlocks, normalizeCRLF_eq_self t hcr, splitGo_skip]
  cases hd : dropBeforeSpeaker (splitOnNl t) with
  | nil => rfl
  | cons d ds =>
    have hdsp : looksLikeSpeakerLine d = true := by
      have := dropWhile_head_false (p := fun l => !(looksLikeSpeakerLine l)) hd
      simpa using this
    have hmem : ∀ x ∈ d :: ds, x ∈ splitOnNl t := by
      intro x hx
      rw [← hd] at hx
      exact (List.dropWhile_sublist _).mem hx
    rw [hd] at hok
    rw [splitGo, if_pos hdsp, splitGo_blocks_append, hl d (hmem d (by simp))]
    have hokds : okLinesB ds = true := ((Bool.and_eq_true _ _).mp (by rw [okLinesB] at hok; exact hok)).2
    have hrec := splitGo_join ds [d] (by simp)
      (fun y hy => by simp at hy; rw [hy]; exact hl d (hmem d (by simp)))
      (fun y hy => hl y (hmem y (by simp [hy])))
      (by
        intro hgl
        simp at hgl
        exact absurd hgl (speaker_ne_nil hdsp))
      hokds
    rw [show splitFlush [] [] = [] from rfl, List.nil_append, hrec]
    rfl

/-- Counterexample to C8 as stated: a transcript with a trailing space on
the speaker line, a trailing space inside a turn, and a blank line before
the next speaker line does not reconstruct exactly: the splitter trims
the lines and drops the blank line. -/
theorem splitIntoBlocks_reconstruct_counterexample :
    joinSep nl (splitIntoBlocks (("junk\nSPEAKER: A \nhi \n\nSPEAKER: B\nyo").toList))
      ≠ joinSep nl (dropBeforeSpeaker (splitOnNl (normalizeCRLF
          (("junk\nSPEAKER: A \nhi \n\nSPEAKER: B\nyo").toList)))) := by
  decide

/-- Witness for the amended C8 at a clean transcript with leading junk. -/
theorem splitIntoBlocks_reconstruct_witness :
    joinSep nl (splitIntoBlocks (("junk\nSPEAKER: A\nhi\nSPEAKER: B\nyo").toList))
      = joinSep nl (dropBeforeSpeaker
          (splitOnNl (("junk\nSPEAKER: A\nhi\nSPEAKER: B\nyo").toList))) :=
  splitIntoBlocks_reconstruct (("junk\nSPEAKER: A\nhi\nSPEAKER: B\nyo").toList)
    (by decide) (by decide) (by decide)

/-!
Block well-formedness and non-emptiness.
-/

theorem takeWhile_all {p : Char → Bool} : ∀ {l : Str}, (∀ c ∈ l, p c = true) →
    l.takeWhile p = l := by
  intro l
  induction l with
  | nil => intro _; rfl
  | cons c t ih =>
    intro h
    rw [List.takeWhile_cons, if_pos (h c (by simp))]
    rw [ih (fun d hd => h d (by simp [hd]))]

theorem takeWhile_append_stop {p : Char → Bool} {c : Char} (r : Str) :
    ∀ {x : Str}, (∀ d ∈ x, p d = true) → p c = false →
    (x ++ c :: r).takeWhile p = x := by
  intro x
  induction x with
  | nil =>
    intro _ hc
    simp [List.takeWhile_cons, hc]
  | cons d u ih =>
    intro h hc
    rw [List.cons_append, List.takeWhile_cons, if_pos (h d (by simp))]
    rw [ih (fun e he => h e (by simp [he])) hc]

theorem dropWhile_append_gen (p : Char → Bool) : ∀ (a b : Str),
    List.dropWhile p (a ++ b)
      = if List.dropWhile p a = [] then List.dropWhile p b
        else List.dropWhile p a ++ b := by
  intro a
  induction a with
  | nil => intro b; simp
  | cons c t ih =>
    intro b
    rw [List.cons_append, List.dropWhile_cons, List.dropWhile_cons]
    by_cases hc : p c
    · rw [if_pos hc, if_pos hc, ih b]
    · rw [if_neg hc, if_neg hc, if_neg (by simp)]
      rfl

/-- General decomposition of trimEnd over an append. -/
theorem trimEnd_append (x y : Str) :
    trimEnd (x ++ y) = if trimEnd y = [] then trimEnd x else x ++ trimEnd y := by
  rw [trimEnd, List.reverse_append, dropWhile_append_gen]
  by_cases h : List.dropWhile isWS y.reverse = []
  · rw [if_pos h, if_pos (by rw [trimEnd, h]; rfl)]
    rfl
  · rw [if_neg h, if_neg (by rw [trimEnd]; intro h0; exact h (by simpa using congrArg List.reverse h0))]
    rw [List.reverse_append]
    simp [trimEnd]

/-- Every line produced by splitting on newlines contains no newline. -/
theorem splitOnNl_no_nl : ∀ (t : Str), ∀ l ∈ splitOnNl t, ('\n') ∉ l := by
  intro t
  induction t with
  | nil =>
    intro l hl
    simp [splitOnNl] at hl
    simp [hl]
  | cons c rest ih =>
    intro l hl
    rw [splitOnNl] at hl
    cases hs : splitOnNl rest with
    | nil =>
      rw [hs] at hl
      simp at hl
      simp [hl]
    | cons h tl =>
      rw [hs] at hl
      dsimp only at hl
      by_cases hc : c = '\n'
      · rw [if_pos hc] at hl
        rcases List.mem_cons.mp hl with rfl | hl
        · simp
        · exact ih l (by rw [hs]; exact hl)
      · rw [if_neg hc] at hl
        rcases List.mem_cons.mp hl with rfl | hl
        · intro hmem
          rcases List.mem_cons.mp hmem with heq | hmem
          · exact hc heq.symm
          · exact ih h (by rw [hs]; simp) hmem
        · exact ih l (by rw [hs]; simp [hl])

/-- looksLikeSpeakerLine is insensitive to right-trimming. -/
theorem looksLike_trimEnd (l : Str) :
    looksLikeSpeakerLine (trimEnd l) = looksLikeSpeakerLine l := by
  rw [looksLikeSpeakerLine, looksLikeSpeakerLine, trim_trimEnd]

/-- The first line of a flushed block is its speaker line. -/
theorem firstLine_flush {h : Str} (rest : List Str)
    (hfix : trimEnd h = h) (_hne : h ≠ []) (hnl : ('\n') ∉ h) :
    firstLine (trimEnd (joinSep nl (h :: rest))) = h := by
  cases rest with
  | nil =>
    show firstLine (trimEnd h) = h
    rw [hfix, firstLine]
    exact takeWhile_all (fun c hc => by
      simp only [Bool.not_eq_true', decide_eq_false_iff_not]
      intro heq
      exact hnl (heq ▸ hc))
  | cons y u =>
    have hshape : joinSep nl (h :: y :: u) = h ++ '\n' :: joinSep nl (y :: u) := by
      rw [show joinSep nl (h :: y :: u) = h ++ nl ++ joinSep nl (y :: u) from rfl]
      simp [nl]
    rw [hshape, trimEnd_append]
    by_cases hts : trimEnd ('\n' :: joinSep nl (y :: u)) = []
    · rw [if_pos hts, hfix, firstLine]
      exact takeWhile_all (fun c hc => by
        simp only [Bool.not_eq_true', decide_eq_false_iff_not]
        intro heq
        exact hnl (heq ▸ hc))
    · rw [if_neg hts]
      have hcons : trimEnd ('\n' :: joinSep nl (y :: u))
          = '\n' :: trimEnd (joinSep nl (y :: u)) := by
        have h3 := trimEnd_append ['\n'] (joinSep nl (y :: u))
        simp only [List.singleton_append] at h3
        by_cases h2 : trimEnd (joinSep nl (y :: u)) = []
        · exact absurd (h3.trans (by rw [if_pos h2]; decide)) hts
        · rw [h3, if_neg h2]
      rw [hcons, firstLine]
      exact takeWhile_append_stop _ (fun d hd => by
        simp only [Bool.not_eq_true', decide_eq_false_iff_not]
        intro heq
        exact hnl (heq ▸ hd)) (by simp)

/-- A flushed block is well formed and its first line is its speaker line. -/
theorem flushBlock_wf {h : Str} (rest : List Str)
    (hsp : looksLikeSpeakerLine h = true) (hfix : trimEnd h = h) (hnl : ('\n') ∉ h) :
    WFBlock (trimEnd (joinSep nl (h :: rest))) ∧
    looksLikeSpeakerLine (firstLine (trimEnd (joinSep nl (h :: rest)))) = true := by
  have hne : h ≠ [] := speaker_ne_nil hsp
  constructor
  · constructor
    · exact trimEnd_idem _
    · rw [trim_trimEnd, trim_ne_nil_iff]
      exact hasNonWS_joinSep nl (by simp)
        (hasNonWS_of_trim_ne_nil (speaker_trim_ne_nil hsp))
  · rw [firstLine_flush rest hfix hne hnl]
    exact hsp

/-- Scan invariant: every emitted block is well formed with a speaker
first line, provided the lines carry no newline and the block in progress
starts with a trimmed speaker line. -/
theorem splitGo_blocks_wf : ∀ (ls : List Str), (∀ l ∈ ls, ('\n') ∉ l) →
    ∀ (current : List Str),
    (current = [] ∨ ∃ h rest, current = h :: rest ∧ looksLikeSpeakerLine h = true ∧
        trimEnd h = h ∧ ('\n') ∉ h) →
    ∀ b ∈ splitGo ls [] current,
      WFBlock b ∧ looksLikeSpeakerLine (firstLine b) = true := by
  intro ls
  induction ls with
  | nil =>
    intro _ current hinv b hb
    rw [splitGo] at hb
    rcases hinv with rfl | ⟨h, rest, rfl, hsp, hfix, hnl⟩
    · rw [splitFlush] at hb
      simp at hb
    · rw [splitFlush, if_pos (by simp)] at hb
      simp at hb
      subst hb
      exact flushBlock_wf rest hsp hfix hnl
  | cons l rest ih =>
    intro hno current hinv b hb
    have hnorest : ∀ x ∈ rest, ('\n') ∉ x := fun x hx => hno x (by simp [hx])
    rw [splitGo] at hb
    by_cases hsp : looksLikeSpeakerLine l
    · rw [if_pos hsp, splitGo_blocks_append] at hb
      rcases List.mem_append.mp hb with hb | hb
      · rcases hinv with rfl | ⟨h, rest0, rfl, hsp0, hfix0, hnl0⟩
        · rw [splitFlush] at hb
          simp at hb
        · rw [splitFlush, if_pos (by simp)] at hb
          simp at hb
          subst hb
          exact flushBlock_wf rest0 hsp0 hfix0 hnl0
      · refine ih hnorest [trimEnd l] (Or.inr ⟨trimEnd l, [], rfl, ?_, trimEnd_idem l, ?_⟩) b hb
        · rw [looksLike_trimEnd]
          exact hsp
        · intro hmem
          exact hno l (by simp) (mem_of_mem_trimEnd hmem)
    · rw [if_neg hsp] at hb
      by_cases hc : current.length > 0
      · rw [if_pos hc] at hb
        rcases hinv with rfl | ⟨h, rest0, rfl, hsp0, hfix0, hnl0⟩
        · simp at hc
        · exact ih hnorest (h :: (rest0 ++ [trimEnd l]))
            (Or.inr ⟨h, rest0 ++ [trimEnd l], by simp, hsp0, hfix0, hnl0⟩) b hb
      · rw [if_neg hc] at hb
        exact ih hnorest current hinv b hb

/-- Every block of the Block Splitter is well formed: non-empty, a right
trim fixed point with visible content, and its first line is a speaker
line. -/
theorem splitIntoBlocks_wf (t : Str) : ∀ b ∈ splitIntoBlocks t,
    WFBlock b ∧ looksLikeSpeakerLine (firstLine b) = true := by
  rw [splitIntoBlocks]
  exact splitGo_blocks_wf (splitOnNl (normalizeCRLF t))
    (splitOnNl_no_nl (normalizeCRLF t)) [] (Or.inl rfl)

theorem hasNonWS_append (x y : Str) :
    hasNonWS (x ++ y) = (hasNonWS x || hasNonWS y) := by
  simp [hasNonWS, List.any_append]

/-- Every chunk either keeps visible content or is a forced slice of an
oversized block. -/
theorem buildLoop_nonempty_or_slice (target maxC : Nat) :
    ∀ (blocks : List Str) (cur : Str), (∀ b ∈ blocks, trim b ≠ []) →
      (cur = [] ∨ trim cur ≠ []) →
      ∀ c ∈ buildLoop target maxC blocks cur,
        trim c ≠ [] ∨ ∃ b ∈ blocks, maxC < b.length ∧ c ∈ sliceUp maxC b := by
  intro blocks
  induction blocks with
  | nil =>
    intro cur _ _ c hc
    rw [buildLoop] at hc
    by_cases h : (trim cur).length > 0
    · rw [if_pos h] at hc
      simp at hc
      subst hc
      left
      rw [trim_trimEnd]
      intro h0
      rw [h0] at h
      simp at h
    · rw [if_neg h] at hc
      simp at hc
  | cons b rest ih =>
    intro cur hblocks hcur c hc
    have hbrest : ∀ x ∈ rest, trim x ≠ [] := fun x hx => hblocks x (by simp [hx])
    rw [buildLoop] at hc
    by_cases hb : b.length > maxC
    · rw [buildStep_over target maxC cur b hb] at hc
      simp only [List.mem_append] at hc
      rcases hc with (hc | hc) | hc
      · by_cases h : (trim cur).length > 0
        · rw [if_pos h] at hc
          simp at hc
          subst hc
          left
          rw [trim_trimEnd]
          intro h0
          rw [h0] at h
          simp at h
        · rw [if_neg h] at hc
          simp at hc
      · exact Or.inr ⟨b, by simp, hb, hc⟩
      · rcases ih [] hbrest (Or.inl rfl) c hc with h | ⟨b', hb', hlen', hc'⟩
        · exact Or.inl h
        · exact Or.inr ⟨b', by simp [hb'], hlen', hc'⟩
    · have htrimb : trim b ≠ [] := hblocks b (by simp)
      rcases buildStep_not_over target maxC cur b hb with ⟨hpos, _, heq⟩ | ⟨_, _, heq⟩ <;>
        rw [heq] at hc
      · rcases List.mem_append.mp hc with hc | hc
        · simp at hc
          subst hc
          left
          rw [trim_trimEnd]
          rcases hcur with rfl | hcur
          · simp at hpos
          · exact hcur
        · rcases ih b hbrest (Or.inr htrimb) c hc with h | ⟨b', hb', hlen', hc'⟩
          · exact Or.inl h
          · exact Or.inr ⟨b', by simp [hb'], hlen', hc'⟩
      · simp only [List.nil_append] at hc
        have hcur' : trim (cur ++ (if cur.length > 0 then sep else []) ++ b) ≠ [] := by
          rw [trim_ne_nil_iff, hasNonWS_append, hasNonWS_append]
          have := (trim_ne_nil_iff b).mp htrimb
          simp [this]
        rcases ih _ hbrest (Or.inr hcur') c hc with h | ⟨b', hb', hlen', hc'⟩
        · exact Or.inl h
        · exact Or.inr ⟨b', by simp [hb'], hlen', hc'⟩

/-- Witness for C2 at a concrete two-block input. -/
theorem chunkBuilder_no_block_lost_witness :
    (0 < 5 ∧ (∀ b ∈ [("a").toList, ("b").toList], WFBlock b)) ∧
    ((buildGroups [("a").toList, ("b").toList] 3 5).map groupParts).flatten
      = [("a").toList, ("b").toList] :=
  ⟨⟨by decide, by decide⟩,
   (chunkBuilder_no_block_lost [("a").toList, ("b").toList] 3 5 (by decide) (by decide)).2.1⟩

/-!
Retry wrapper characterization.
-/

/-- Behaviour of the retry loop from any attempt: if every attempt before k
fails retryably and the loop stops at k (success, non-retryable error or the
last try), the loop returns the outcome of attempt k after the backoff
delays of the failed attempts. -/
theorem withRetriesGo_char {α : Type} (f : Nat → Except JsErr α) (jitter : Nat → Nat)
    (tries base : Nat) :
    ∀ (fuel attempt : Nat) (lastErr : Option JsErr) (k : Nat),
      attempt ≤ k → k ≤ tries → k - attempt < fuel →
      (∀ m, attempt ≤ m → m < k → ∃ e, f m = .error e ∧ retryable e = true) →
      (∀ e, f k = .error e → retryable e = false ∨ k = tries) →
      withRetriesGo f jitter tries base fuel attempt lastErr
        = ⟨f k,
           (List.range (k - attempt)).map
             (fun j => base * 2 ^ (attempt + j - 1) + jitter (attempt + j)),
           k⟩ := by
  intro fuel
  induction fuel with
  | zero =>
    intro attempt lastErr k h1 h2 h3 _ _
    omega
  | succ fuel ih =>
    intro attempt lastErr k h1 h2 h3 hfail hstop
    rcases Nat.lt_or_ge attempt k with hlt | hge
    · obtain ⟨e, hfe, hre⟩ := hfail attempt le_rfl hlt
      rw [withRetriesGo]
      simp only [hfe]
      have hcond : ¬(retryable e = false ∨ attempt = tries) := by
        rw [hre]
        simp
        omega
      rw [if_neg hcond]
      have ihh := ih (attempt + 1) (some e) k (by omega) h2 (by omega)
        (fun m hm1 hm2 => hfail m (by omega) hm2) hstop
      rw [ihh]
      have hsplit : k - attempt = (k - (attempt + 1)) + 1 := by omega
      have hlist : (base * 2 ^ (attempt - 1) + jitter attempt) ::
          (List.range (k - (attempt + 1))).map
            (fun j => base * 2 ^ (attempt + 1 + j - 1) + jitter (attempt + 1 + j))
          = (List.range (k - attempt)).map
            (fun j => base * 2 ^ (attempt + j - 1) + jitter (attempt + j)) := by
        rw [hsplit, List.range_succ_eq_map, List.map_cons, List.map_map]
        refine congrArg₂ List.cons (by simp) ?_
        apply List.map_congr_left
        intro a _
        simp only [Function.comp_apply, Nat.succ_eq_add_one]
        have hj : attempt + (a + 1) = attempt + 1 + a := by omega
        rw [hj]
      exact congrArg (fun ds => (⟨f k, ds, k⟩ : RetryResult α)) hlist
    · have hak : attempt = k := by omega
      subst hak
      rw [withRetriesGo]
      cases hfk : f attempt with
      | ok v => simp [hfk]
      | error e =>
        have hcond := hstop e hfk
        simp only [hfk]
        rw [if_pos hcond]
        simp

/-- C4: the retry wrapper makes at most 6 attempts; an attempt is retried
exactly when its error is retryable and it is not the last; before each
retry it waits 750 times 2 to the attempt minus one, plus the random jitter
under 250; the outcome of the stopping attempt, success or error,
propagates as the result. -/
theorem withRetries_spec {α : Type} (f : Nat → Except JsErr α) (jitter : Nat → Nat)
    (hj : ∀ n, jitter n < 250) (k : Nat) (hk1 : 1 ≤ k) (hk6 : k ≤ 6)
    (hfail : ∀ m, 1 ≤ m → m < k → ∃ e, f m = .error e ∧ retryable e = true)
    (hstop : ∀ e, f k = .error e → retryable e = false ∨ k = 6) :
    (withRetries f jitter).attemptsMade = k ∧
    (withRetries f jitter).attemptsMade ≤ 6 ∧
    (withRetries f jitter).result = f k ∧
    (withRetries f jitter).delays
      = (List.range (k - 1)).map (fun j => 750 * 2 ^ j + jitter (j + 1)) ∧
    (∀ j, j < k - 1 →
      750 * 2 ^ j ≤ (withRetries f jitter).delays.getD j 0 ∧
      (withRetries f jitter).delays.getD j 0 < 750 * 2 ^ j + 250) := by
  have hchar := withRetriesGo_char f jitter 6 750 6 1 none k hk1 hk6 (by omega) hfail hstop
  rw [withRetries, hchar]
  have hdel : (List.range (k - 1)).map (fun j => 750 * 2 ^ (1 + j - 1) + jitter (1 + j))
      = (List.range (k - 1)).map (fun j => 750 * 2 ^ j + jitter (j + 1)) := by
    apply List.map_congr_left
    intro j _
    have h1 : 1 + j - 1 = j := by omega
    have h2 : 1 + j = j + 1 := by omega
    rw [h1, h2]
  refine ⟨rfl, hk6, rfl, hdel, ?_⟩
  intro j hjk
  have hget : ((List.range (k - 1)).map
      (fun j => 750 * 2 ^ (1 + j - 1) + jitter (1 + j))).getD j 0
        = 750 * 2 ^ j + jitter (j + 1) := by
    rw [hdel]
    rw [List.getD_eq_getElem _ _ (by simpa using hjk)]
    simp
  simp only [hget]
  have := hj (j + 1)
  omega

/-- Witness for C4: two 429 failures then success on the third attempt,
with zero jitter, gives three attempts and the delays 750 and 1500. -/
theorem withRetries_spec_witness :
    (withRetries (fun a => if a ≤ 2 then Except.error ⟨some 429, ([] : Str)⟩ else Except.ok 0)
        (fun _ => 0)).attemptsMade = 3 ∧
    (withRetries (fun a => if a ≤ 2 then Except.error ⟨some 429, ([] : Str)⟩ else Except.ok 0)
        (fun _ => 0)).delays = [750, 1500] := by
  have h := withRetries_spec
      (fun a => if a ≤ 2 then Except.error ⟨some 429, ([] : Str)⟩ else Except.ok 0)
      (fun _ => 0) (by intro n; norm_num) 3 (by omega) (by omega)
      (fun m h1 h2 => ⟨⟨some 429, []⟩, by
        have : m = 1 ∨ m = 2 := by omega
        rcases this with rfl | rfl <;> rfl, by decide⟩)
      (fun e he => by simp at he)
  refine ⟨h.1, ?_⟩
  rw [h.2.2.2.1]
  decide

/-- Witness: the scenario of a lone block of 500 characters with M equal 200
gives chunks of lengths 200, 200, 100. -/
theorem chunkBuilder_length_bound_witness :
    (100 ≤ 200 ∧ 0 < 200 ∧
      ∀ c ∈ buildChunksFromBlocks [List.replicate 500 'a'] 100 200, c.length ≤ 200) ∧
    (buildChunksFromBlocks [List.replicate 500 'a'] 100 200).map List.length = [200, 200, 100] :=
  ⟨⟨by decide, by decide,
    (chunkBuilder_length_bound [List.replicate 500 'a'] 100 200 (by decide) (by decide)).1⟩,
   by rw [buildChunks_replicate_500]; simp⟩

/-!
Computation of the splitter and builder on the concrete oversized turn.
-/

theorem splitOnNl_ne_nil : ∀ s : Str, splitOnNl s ≠ [] := by
  intro s
  cases s with
  | nil => simp [splitOnNl]
  | cons c rest =>
    rw [splitOnNl]
    cases h : splitOnNl rest with
    | nil => simp
    | cons hd tl =>
      by_cases hc : c = '\n'
      · simp [hc]
      · simp [hc]

theorem splitOnNl_cons_nl (rest : Str) :
    splitOnNl ('\n' :: rest) = [] :: splitOnNl rest := by
  rw [splitOnNl]
  cases h : splitOnNl rest with
  | nil => exact absurd h (splitOnNl_ne_nil rest)
  | cons hd tl => simp

theorem splitOnNl_append_cons : ∀ (x : Str), ('\n') ∉ x → ∀ (rest : Str),
    splitOnNl (x ++ '\n' :: rest) = x :: splitOnNl rest := by
  intro x
  induction x with
  | nil =>
    intro _ rest
    simp only [List.nil_append]
    exact splitOnNl_cons_nl rest
  | cons c t ih =>
    intro hx rest
    have hc : ¬ c = '\n' := fun h => hx (by simp [h])
    simp only [List.cons_append]
    rw [splitOnNl, ih (fun hm => hx (by simp [hm])) rest]
    simp [hc]

theorem splitOnNl_replicate_nl : ∀ (n : Nat) (s : Str),
    splitOnNl (List.replicate n '\n' ++ s) = List.replicate n [] ++ splitOnNl s := by
  intro n
  induction n with
  | zero => intro s; simp
  | succ m ih =>
    intro s
    rw [List.replicate_succ, List.cons_append, splitOnNl_cons_nl, ih]
    simp [List.replicate_succ]

/-- Blank lines inside a turn are appended to the block in progress. -/
theorem splitGo_empties : ∀ (n : Nat) (ls blocks cur : List Str), 0 < cur.length →
    splitGo (List.replicate n [] ++ ls) blocks cur
      = splitGo ls blocks (cur ++ List.replicate n []) := by
  intro n
  induction n with
  | zero => intro ls blocks cur _; simp
  | succ m ih =>
    intro ls blocks cur hcur
    rw [List.replicate_succ, List.cons_append, splitGo,
      if_neg (show ¬ (looksLikeSpeakerLine [] = true) by decide), if_pos hcur]
    have ht : trimEnd ([] : Str) = [] := rfl
    rw [ht, ih ls blocks (cur ++ [[]]) (by simp)]
    simp [List.replicate_succ, List.append_assoc]

theorem joinSep_cons_of_ne_nil (s x : Str) (ys : List Str) (h : ys ≠ []) :
    joinSep s (x :: ys) = x ++ s ++ joinSep s ys := by
  cases ys with
  | nil => exact absurd rfl h
  | cons z t => rfl

theorem joinSep_empties_last : ∀ (n : Nat) (y : Str),
    joinSep nl (List.replicate n [] ++ [y]) = List.replicate n '\n' ++ y := by
  intro n
  induction n with
  | zero => intro y; simp [joinSep]
  | succ m ih =>
    intro y
    rw [List.replicate_succ, List.cons_append,
      joinSep_cons_of_ne_nil nl [] (List.replicate m [] ++ [y]) (by simp), ih]
    simp [nl, List.replicate_succ]

theorem cexSpk_length : cexSpk.length = 32000 := by
  rw [cexSpk, List.length_append, List.length_cons, List.length_replicate]
  have h8 : (("SPEAKER:").toList).length = 8 := rfl
  rw [h8]

theorem cexT_length : cexT.length = 64001 := by
  rw [cexT, List.length_append, List.length_append, cexSpk_length, cexB,
    List.length_replicate, List.length_cons, List.length_nil]

theorem replicate_x_nonws : ∀ c ∈ List.replicate 31991 'x', isWS c = false := by
  intro c hc
  rw [List.eq_of_mem_replicate hc]
  decide

theorem replicate_x_ne_nil : List.replicate 31991 'x' ≠ [] := by
  intro h
  have h2 := congrArg List.length h
  rw [List.length_replicate] at h2
  exact absurd h2 (by norm_num)

theorem trimEnd_cexSpk : trimEnd cexSpk = cexSpk := by
  rw [cexSpk, List.append_cons]
  rw [trimEnd_append_fixed (("SPEAKER:").toList ++ [ ' ' ])
    (trimEnd_all_nonws replicate_x_nonws) replicate_x_ne_nil]

theorem looksLike_cexSpk : looksLikeSpeakerLine cexSpk = true := by
  have htrim : trim cexSpk = cexSpk := by
    rw [trim, trimEnd_cexSpk, trimStart, cexSpk]
    have hS : ("SPEAKER:").toList = 'S' :: ("PEAKER:").toList := rfl
    rw [hS, List.cons_append, List.dropWhile_cons, if_neg (by decide)]
  have htake : cexSpk.take 8 = ("SPEAKER:").toList := by
    rw [cexSpk]
    exact List.take_left' rfl
  have hdrop : cexSpk.drop 8 = ' ' :: List.replicate 31991 'x' := by
    rw [cexSpk]
    exact List.drop_left' rfl
  rw [looksLikeSpeakerLine]
  rw [htrim]
  refine (Bool.and_eq_true _ _).mpr ⟨?_, ?_⟩
  · rw [decide_eq_true_eq, htake]
    decide
  · rw [decide_eq_true_eq, hdrop, List.dropWhile_cons, if_pos (by decide),
      dropWhile_eq_self_of_all isWS _ replicate_x_nonws]
    exact replicate_x_ne_nil

theorem nl_not_mem_cexSpk : ('\n') ∉ cexSpk := by
  rw [cexSpk]
  intro h
  rcases List.mem_append.mp h with h | h
  · exact absurd h (by decide)
  · rcases List.mem_cons.mp h with h | h
    · exact absurd h (by decide)
    · exact absurd (List.eq_of_mem_replicate h) (by decide)

theorem cr_not_mem_cexT : ('\r') ∉ cexT := by
  rw [cexT, cexB, cexSpk]
  intro h
  simp only [List.mem_append, List.mem_cons, List.mem_replicate, List.not_mem_nil,
    or_false] at h
  exact absurd h (by decide)

theorem replicate_nl_succ : List.replicate 32000 '\n' = '\n' :: List.replicate 31999 '\n' := by
  rw [← List.replicate_succ]

theorem splitIntoBlocks_cexT : splitIntoBlocks cexT = [cexT] := by
  rw [splitIntoBlocks, normalizeCRLF_eq_self cexT cr_not_mem_cexT]
  have hx : cexT = cexSpk ++ '\n' :: (List.replicate 31999 '\n' ++ [ 'y' ]) := by
    rw [cexT, cexB, replicate_nl_succ]
    simp only [List.cons_append]
  rw [hx, splitOnNl_append_cons cexSpk nl_not_mem_cexSpk, splitOnNl_replicate_nl]
  have hy : splitOnNl [ 'y' ] = [[ 'y' ]] := by decide
  rw [hy, splitGo, if_pos looksLike_cexSpk]
  have hf : splitFlush [] [] = [] := by rw [splitFlush]; simp
  have hcond : ([cexSpk] ++ List.replicate 31999 ([] : Str)).length > 0 := by
    rw [List.length_append, List.length_replicate]
    omega
  rw [hf, trimEnd_cexSpk, splitGo_empties 31999 [[ 'y' ]] [] [cexSpk] (by simp),
    splitGo, if_neg (show ¬ (looksLikeSpeakerLine [ 'y' ] = true) by decide),
    if_pos hcond]
  have hty : trimEnd [ 'y' ] = [ 'y' ] := by decide
  have hcond3 : (([cexSpk] ++ List.replicate 31999 ([] : Str)) ++ [[ 'y' ]]).length > 0 := by
    rw [List.length_append, List.length_append, List.length_replicate]
    omega
  rw [hty, splitGo, splitFlush, if_pos hcond3]
  have hlist : ([cexSpk] ++ List.replicate 31999 ([] : Str)) ++ [[ 'y' ]]
      = cexSpk :: (List.replicate 31999 ([] : Str) ++ [[ 'y' ]]) := by
    simp only [List.append_assoc, List.cons_append, List.nil_append]
  rw [hlist, joinSep_cons_of_ne_nil nl cexSpk _
      (by intro h0; exact absurd (List.append_eq_nil.mp h0).2 (by decide)),
    joinSep_empties_last]
  have hjoin : cexSpk ++ nl ++ (List.replicate 31999 '\n' ++ [ 'y' ]) = cexT := by
    rw [cexT, cexB, replicate_nl_succ, nl]
    simp only [List.append_assoc, List.cons_append, List.nil_append]
  rw [hjoin]
  have hfix : trimEnd cexT = cexT := by
    rw [cexT, (List.append_assoc cexSpk cexB [ 'y' ]).symm,
      trimEnd_append_fixed _ (by decide) (by decide)]
  rw [hfix]
  rfl

theorem chunks_cexT : buildChunksFromBlocks [cexT] TARGET_CHUNK_CHARS MAX_CHUNK_CHARS
    = [cexSpk, cexB, [ 'y' ]] := by
  rw [buildChunksFromBlocks, buildLoop]
  have hover : cexT.length > MAX_CHUNK_CHARS := by
    rw [cexT_length, MAX_CHUNK_CHARS]
    norm_num
  rw [buildStep_over _ _ _ _ hover]
  dsimp only
  rw [if_neg (show ¬ ((trim []).length > 0) by decide), buildLoop,
    if_neg (show ¬ ((trim []).length > 0) by decide)]
  rw [List.nil_append, List.append_nil]
  have hMAX : MAX_CHUNK_CHARS = 32000 := rfl
  have hcond1 : ¬ (cexT.length = 0) := by
    rw [cexT_length]
    norm_num
  rw [hMAX, sliceUp, if_neg hcond1, if_neg (by norm_num)]
  have htake1 : cexT.take 32000 = cexSpk := by
    rw [cexT]
    exact List.take_left' cexSpk_length
  have hdrop1 : cexT.drop 32000 = cexB ++ [ 'y' ] := by
    rw [cexT]
    exact List.drop_left' cexSpk_length
  have hlenB : cexB.length = 32000 := by rw [cexB, List.length_replicate]
  have hcond2 : ¬ ((cexB ++ [ 'y' ]).length = 0) := by
    rw [List.length_append, hlenB]
    omega
  rw [htake1, hdrop1, sliceUp, if_neg hcond2, if_neg (by norm_num)]
  have htake2 : (cexB ++ [ 'y' ]).take 32000 = cexB := List.take_left' hlenB
  have hdrop2 : (cexB ++ [ 'y' ]).drop 32000 = [ 'y' ] := List.drop_left' hlenB
  rw [htake2, hdrop2, sliceUp, if_neg (by decide), if_neg (by norm_num)]
  have htk3 : ([ 'y' ] : Str).take 32000 = [ 'y' ] := List.take_of_length_le (by decide)
  have hdp3 : ([ 'y' ] : Str).drop 32000 = ([] : Str) := List.drop_eq_nil_of_le (by decide)
  have hnil : sliceUp 32000 ([] : Str) = [] := by
    rw [sliceUp]
    simp
  rw [htk3, hdp3, hnil]

theorem trim_cexB : trim cexB = [] := by
  have h : trimEnd cexB = [] := (trimEnd_eq_nil_iff cexB).mpr (by
    intro c hc
    rw [cexB] at hc
    rw [List.eq_of_mem_replicate hc]
    decide)
  rw [trim, h]
  rfl

/-- C10, amended: every block of the Block Splitter is non-empty, a right-trim
fixed point with visible content, and its first line is a speaker line; every
chunk the Chunk Builder makes from these blocks is non-empty after trimming
unless it is a forced-split slice of an oversized block, which can be
whitespace-only; and every part text the orchestrator writes is non-empty
after trimming, given that the summarize and expand operations return
trim-non-empty text (which the source operations enforce via their
empty-output check). -/
theorem blocks_chunks_parts_nonempty (t : Str) (target maxC : Nat)
    (sOp : Str → Nat → Str → Except JsErr Str) (eOp : Str → Except JsErr Str)
    (chunks : List Str) (files : Nat → Option Str) (minChars B : Nat) (r : RunResult)
    (hS : ∀ c i b s0, sOp c i b = .ok s0 → trim s0 ≠ [])
    (hE : ∀ s0 t0, eOp s0 = .ok t0 → trim t0 ≠ [])
    (hrun : mainRun chunks files sOp eOp minChars B = .ok r) :
    (∀ b ∈ splitIntoBlocks t,
        b ≠ [] ∧ trimEnd b = b ∧ trim b ≠ [] ∧ looksLikeSpeakerLine (firstLine b) = true) ∧
    (∀ c ∈ buildChunksFromBlocks (splitIntoBlocks t) target maxC,
        trim c ≠ [] ∨ ∃ b ∈ splitIntoBlocks t, maxC < b.length ∧ c ∈ sliceUp maxC b) ∧
    (∀ s ∈ r.steps, ∀ w, s.written = some w → trim w ≠ []) := by
  refine ⟨?_, ?_, ?_⟩
  · intro b hb
    obtain ⟨⟨h1, h2⟩, h3⟩ := splitIntoBlocks_wf t b hb
    exact ⟨WFBlock.ne_nil ⟨h1, h2⟩, h1, h2, h3⟩
  · intro c hc
    rw [buildChunksFromBlocks] at hc
    exact buildLoop_nonempty_or_slice target maxC (splitIntoBlocks t) []
      (fun b hb => ((splitIntoBlocks_wf t b hb).1).2) (Or.inl rfl) c hc
  · intro s hs w hw
    obtain ⟨hloop, _, _, _⟩ := mainRun_ok_inv chunks files sOp eOp minChars B r hrun
    rw [runLoop] at hloop
    rcases runLoopGo_ok_steps sOp eOp chunks (loadPart files) minChars B
        chunks.length 0 [] r.steps hloop s hs with
      ⟨_, _, _, _, _, hwn⟩ | ⟨_, _, b, s0, _, hsop, _, hbig, hwn⟩
    · rw [hwn] at hw
      exact Option.noConfusion hw
    · rw [hwn] at hw
      injection hw with hw2
      subst hw2
      rw [trim_trimEnd]
      rcases hbig with ⟨_, t0, heop, _, hft⟩ | ⟨_, _, hft⟩
      · rw [hft]
        exact hE s0 t0 heop
      · rw [hft]
        exact hS (chunks.getD s.index []) s.index b s0 hsop

/-- Counterexample to C10 as stated: on the transcript cexT the Block
Splitter outputs a single well-formed oversized block (non-empty, with a
speaker first line), yet the middle chunk the Chunk Builder makes from it
is a pure newline run, so it is empty after trimming: a forced-split slice
of an oversized block need not be non-empty after trimming. -/
theorem blocks_chunks_counterexample :
    (∀ b ∈ splitIntoBlocks cexT, b ≠ [] ∧ looksLikeSpeakerLine (firstLine b) = true) ∧
    (buildChunksFromBlocks (splitIntoBlocks cexT) TARGET_CHUNK_CHARS
      MAX_CHUNK_CHARS).length = 3 ∧
    trim ((buildChunksFromBlocks (splitIntoBlocks cexT) TARGET_CHUNK_CHARS
      MAX_CHUNK_CHARS).getD 1 []) = [] := by
  refine ⟨?_, ?_, ?_⟩
  · intro b hb
    exact ⟨((splitIntoBlocks_wf cexT b hb).1).ne_nil, (splitIntoBlocks_wf cexT b hb).2⟩
  · rw [splitIntoBlocks_cexT, chunks_cexT]
    rfl
  · rw [splitIntoBlocks_cexT, chunks_cexT]
    exact trim_cexB

/-- Witness for the amended C10 at a small transcript and a one-chunk run
whose oracles return fixed non-blank texts. -/
theorem blocks_chunks_parts_nonempty_witness :
    (∀ b ∈ splitIntoBlocks (("SPEAKER: A\nhi").toList),
        b ≠ [] ∧ trimEnd b = b ∧ trim b ≠ [] ∧
          looksLikeSpeakerLine (firstLine b) = true) ∧
    (∀ c ∈ buildChunksFromBlocks (splitIntoBlocks (("SPEAKER: A\nhi").toList))
        TARGET_CHUNK_CHARS MAX_CHUNK_CHARS,
        trim c ≠ [] ∨ ∃ b ∈ splitIntoBlocks (("SPEAKER: A\nhi").toList),
          MAX_CHUNK_CHARS < b.length ∧ c ∈ sliceUp MAX_CHUNK_CHARS b) ∧
    (∀ s ∈ ((mainRun [("hello").toList] (fun _ => none)
          (fun _ _ _ => Except.ok (("summary text").toList))
          (fun _ => Except.ok (("expanded").toList)) 0 0).toOption.getD
            ⟨[], [], [], []⟩).steps,
        ∀ w, s.written = some w → trim w ≠ []) :=
  blocks_chunks_parts_nonempty (("SPEAKER: A\nhi").toList) TARGET_CHUNK_CHARS
    MAX_CHUNK_CHARS
    (fun _ _ _ => Except.ok (("summary text").toList))
    (fun _ => Except.ok (("expanded").toList))
    [("hello").toList] (fun _ => none) 0 0
    ((mainRun [("hello").toList] (fun _ => none)
        (fun _ _ _ => Except.ok (("summary text").toList))
        (fun _ => Except.ok (("expanded").toList)) 0 0).toOption.getD ⟨[], [], [], []⟩)
    (by intro c i b s0 h; injection h with h2; subst h2; decide)
    (by intro s0 t0 h; injection h with h2; subst h2; decide)
    (by rfl)

end Batch
